import Mathlib

/-!
# LUT library of the FPGA mapper (`src/map/if/ifLib.c`)

A shallow embedding of the functions of `ifLib.c` and the properties of the
LUT library reader, the built-in libraries and the pin-delay queries.

Conventions of the embedding.

* The C type `float` is a type parameter `α`; the constants `0` and `1.0` are
  its `Zero` and `One`.  The C library functions `atoi` and `atof` are
  parameters of the reader (`atoi : List Char → Int`, `atof : List Char → α`),
  so every theorem about the reader holds for whatever they compute.
  `atoiDec` and `atofDec` are decimal readings, used for concrete inputs and
  for what is read back from a printed library; `atoiWrap` is the reading of
  an `atoi` that wraps around outside the range of `int`.
* `fgets` and `strtok` are modelled on lists of characters.  `fileLines`
  gives the buffers delivered by the calls of
  `fgets( pBuffer, 1000, pFile )`: the characters up to and including the
  next newline, at most 999 of them; the reader takes every buffer for a line.
  `textLines` gives the lines of the input itself.  The two are the same when
  no line has more than 999 characters (`fileLines_eq_textLines`).
* The tables of `If_Lib_t` are functions of the C index (an `Int`).
* A call either returns a library, returns `NULL`, or does not return at all
  (`Result.fault`: a null pointer handed to `atof`, a store outside a table
  row, a failed `assert`).
* The warnings of the check at the end of the reader are the list of the
  `printf` calls with the values of their arguments (`Warning`); the values
  are compared in a linear order on `α`.  The rendering of the text is not
  part of the model.
* For `If_LutLibPrint` the renderings of `%d` and `%.2f` are parameters
  (`fmtD`, `fmtF`); `fmtDec` and `fmt2` are the decimal renderings on exact
  rationals.  For `If_LutLibDelaysAreDiscrete` the value of
  `(float)((int)x)` is the parameter `truncF`; `castIntQ` is that conversion on
  exact rationals for a 32-bit `int`.
-/

namespace IfLib

/-! ## Data model -/

/-- Modelled from the spec: the declaration of `If_Lib_t` lives in `if.h`,
which is not among the sources.  The fields and their order are those of the
initialisers in `If_SetSimpleLutLib`: name, `LutMax`, `fVarPinDelays`, the
areas `pLutAreas[IF_MAX_LUTSIZE+1]` and the delays
`pLutDelays[IF_MAX_LUTSIZE+1][IF_MAX_LUTSIZE+1]`. -/
structure If_Lib_t (α : Type) where
  /-- the name of the library (`char *`, possibly `NULL`) -/
  pName : Option String
  /-- the maximum LUT size (`int`) -/
  LutMax : Int
  /-- non-zero when variable pin delays are specified (`int`) -/
  fVarPinDelays : Int
  /-- the areas of the LUTs, by size -/
  pLutAreas : Int → α
  /-- the delays of the LUTs, by size and pin -/
  pLutDelays : Int → Int → α

/-- What a call that yields a library pointer does. -/
inductive Result (α : Type) where
  /-- the call returns a library -/
  | lib (p : If_Lib_t α) : Result α
  /-- the call returns `NULL` -/
  | null : Result α
  /-- the call does not return: undefined behaviour or a failed assertion -/
  | fault : Result α

/-- The library a result carries, if any. -/
def Result.lib? {α : Type} : Result α → Option (If_Lib_t α)
  | .lib p => some p
  | .null => none
  | .fault => none

/-- The call returned `NULL`. -/
def Result.isNull {α : Type} : Result α → Bool
  | .null => true
  | _ => false

/-- The call did not return. -/
def Result.isFault {α : Type} : Result α → Bool
  | .fault => true
  | _ => false

/-- Assignment `a[i] = v` on a table. -/
def setAt {α : Type} (a : Int → α) (i : Int) (v : α) : Int → α :=
  fun j => if j = i then v else a j

/-- Assignment `a[i][k] = v` on a two-dimensional table. -/
def setAt2 {α : Type} (a : Int → Int → α) (i k : Int) (v : α) : Int → Int → α :=
  fun j m => if j = i ∧ m = k then v else a j m

/-- `static inline char * If_UtilStrsav( char *s )`: `NULL` for `NULL`,
otherwise a fresh copy of the text. -/
def If_UtilStrsav (s : Option String) : Option String :=
  match s with
  | none => none
  | some t => some t

/-! ## The C library functions used by the reader -/

/-- One call `fgets( buf, n, f )` on the unread part of the file: at most
`room = n - 1` characters, stopping after a newline.  Returns the buffer and
what is left unread. -/
def fgetsAux : Nat → List Char → List Char × List Char
  | 0, s => ([], s)
  | _ + 1, [] => ([], [])
  | room + 1, c :: s =>
    if c = '\n' then ([c], s)
    else ((c :: (fgetsAux room s).1), (fgetsAux room s).2)

/-- The call `fgets( buf, n, f )`: `none` (the `NULL` result) at end of file. -/
def fgets (n : Nat) (s : List Char) : Option (List Char × List Char) :=
  match s with
  | [] => none
  | _ :: _ => some (fgetsAux (n - 1) s)

/-- The buffers delivered by the successive calls `fgets( pBuffer, 1000, pFile )`
until the call returns `NULL`, with a bound on the number of calls. -/
def fileLinesAux : Nat → List Char → List (List Char)
  | 0, _ => []
  | fuel + 1, s =>
    match fgets 1000 s with
    | none => []
    | some (buf, rest) => buf :: fileLinesAux fuel rest

/-- The lines of a file as the reader sees them.  Every call of `fgets`
consumes a character, so as many calls as the file has characters suffice
(`fileLinesAux_fuel`). -/
def fileLines (s : List Char) : List (List Char) :=
  fileLinesAux s.length s

/-- The C string held in a buffer: the characters before the first NUL. -/
def cstr (buf : List Char) : List Char :=
  buf.takeWhile (fun c => c != '\x00')

/-- The delimiters `" \t\n"` given to `strtok`. -/
def isDelim (c : Char) : Bool :=
  c == ' ' || c == '\t' || c == '\n'

/-- One call of `strtok` on the unscanned part of the string: skips
delimiters, returns `none` (`NULL`) when nothing is left, otherwise the token
and the part after the delimiter that ended it. -/
def strtok (s : List Char) : Option (List Char × List Char) :=
  match s.dropWhile isDelim with
  | [] => none
  | c :: r =>
    some ((c :: r).takeWhile (fun x => !isDelim x),
          ((c :: r).dropWhile (fun x => !isDelim x)).drop 1)

/-- The tokens delivered by successive calls of `strtok` until it returns
`NULL`, with a bound on the number of calls. -/
def tokensAux : Nat → List Char → List (List Char)
  | 0, _ => []
  | fuel + 1, s =>
    match strtok s with
    | none => []
    | some (tok, rest) => tok :: tokensAux fuel rest

/-- All tokens of a string.  Every token takes a character, so as many calls
as the string has characters suffice (`tokensAux_fuel`). -/
def tokens (s : List Char) : List (List Char) :=
  tokensAux s.length s

/-- The tokens `strtok` finds in a buffer filled by `fgets`. -/
def lineTokens (buf : List Char) : List (List Char) :=
  tokens (cstr buf)

/-- White space in the sense of `isspace`. -/
def isSpaceC (c : Char) : Bool :=
  c == ' ' || c == '\t' || c == '\n' || c == '\x0b' || c == '\x0c' || c == '\r'

/-- Reads decimal digits from the front of a string; returns the number read
so far, the count of digits and the rest. -/
def readDigits : List Char → Nat → Nat → Nat × Nat × List Char
  | [], acc, cnt => (acc, cnt, [])
  | c :: s, acc, cnt =>
    if c.isDigit then readDigits s (10 * acc + (c.toNat - 48)) (cnt + 1)
    else (acc, cnt, c :: s)

/-- Decimal reading of `atoi`: white space, an optional sign, digits.  The
value is the mathematical one (C leaves values outside `int` undefined). -/
def atoiDec (s : List Char) : Int :=
  match s.dropWhile isSpaceC with
  | '-' :: r => - ((readDigits r 0 0).1 : Int)
  | '+' :: r => ((readDigits r 0 0).1 : Int)
  | r => ((readDigits r 0 0).1 : Int)

/-- Unsigned decimal reading with an optional fraction, as a rational. -/
def decValue (s : List Char) : ℚ :=
  match readDigits s 0 0 with
  | (n, _, '.' :: r) =>
    (n : ℚ) + ((readDigits r 0 0).1 : ℚ) / (10 : ℚ) ^ (readDigits r 0 0).2.1
  | (n, _, _) => (n : ℚ)

/-- Decimal reading of `atof` without exponent: white space, an optional
sign, digits, an optional fraction.  The value is the exact rational; the
rounding to `float` is not part of it. -/
def atofDec (s : List Char) : ℚ :=
  match s.dropWhile isSpaceC with
  | '-' :: r => - decValue r
  | '+' :: r => decValue r
  | r => decValue r

/-! ## The reader -/

/-- The loop `k = 0; while ( pToken = strtok( NULL, " \t\n" ) )
p->pLutDelays[i][k++] = (float)atof(pToken);` run on the remaining tokens of
the line from the current `k`.  Returns the table and the final `k`, or
`none` when a store falls outside the row `pLutDelays[i]` of
`IF_MAX_LUTSIZE+1` slots. -/
def readDelays {α : Type} (M : Nat) (atof : List Char → α) (i : Nat) :
    List (List Char) → Nat → (Int → Int → α) → Option ((Int → Int → α) × Nat)
  | [], k, t => some (t, k)
  | tok :: toks, k, t =>
    if i ≤ M ∧ k ≤ M then readDelays M atof i toks (k + 1) (setAt2 t i k (atof tok))
    else none

/-- How the body of the line loop ends for an entry line. -/
inductive Step (α : Type) where
  /-- the body reaches `i++` with this library -/
  | next (p : If_Lib_t α) : Step α
  /-- the function is left with this result -/
  | stop (r : Result α) : Step α

/-- The body of the line loop of `If_LutLibRead` for a line whose first token
`tok` is not a comment; `toks` are the tokens after it, `i` is the counter
and `M` is `IF_MAX_LUTSIZE`. -/
def readEntry {α : Type} (M : Nat) (atoi : List Char → Int) (atof : List Char → α)
    (i : Nat) (p : If_Lib_t α) (tok : List Char) (toks : List (List Char)) : Step α :=
  if (i : Int) ≠ atoi tok then .stop .null
  else
    match toks with
    | [] => .stop .fault
    | a :: ds =>
      if M < i then .stop .fault
      else
        match readDelays M atof i ds 0 p.pLutDelays with
        | none => .stop .fault
        | some (t, k) =>
          if k > i then .stop .null
          else if i = M then .stop .null
          else
            .next { p with
              pLutAreas := setAt p.pLutAreas i (atof a)
              pLutDelays := t
              fVarPinDelays := if k > 1 then 1 else p.fVarPinDelays }

/-- The line loop of `If_LutLibRead` followed by `p->LutMax = i-1; return p`.
The check of the library between the two only prints. -/
def readLoop {α : Type} (M : Nat) (atoi : List Char → Int) (atof : List Char → α) :
    List (List Char) → Nat → If_Lib_t α → Result α
  | [], i, p => .lib { p with LutMax := (i : Int) - 1 }
  | buf :: rest, i, p =>
    match lineTokens buf with
    | [] => readLoop M atoi atof rest i p
    | tok :: toks =>
      if tok.head? = some '#' then readLoop M atoi atof rest i p
      else
        match readEntry M atoi atof i p tok toks with
        | .stop r => r
        | .next q => readLoop M atoi atof rest (i + 1) q

/-- The library after `ALLOC`, `memset( p, 0, sizeof(If_Lib_t) )` and the
assignment of the name. -/
def newLib {α : Type} [Zero α] (FileName : String) : If_Lib_t α :=
  { pName := If_UtilStrsav (some FileName)
    LutMax := 0
    fVarPinDelays := 0
    pLutAreas := fun _ => 0
    pLutDelays := fun _ _ => 0 }

/-- `If_Lib_t * If_LutLibRead( char * FileName )`.  `M` is `IF_MAX_LUTSIZE`
(from `if.h`, not among the sources); `file` is the contents of the file of
that name, `none` when `fopen` fails. -/
def If_LutLibRead {α : Type} [Zero α] (M : Nat) (atoi : List Char → Int)
    (atof : List Char → α) (FileName : String) (file : Option (List Char)) : Result α :=
  match file with
  | none => .null
  | some text => readLoop M atoi atof (fileLines text) 1 (newLib FileName)

/-- The tokens of a line that is an entry: `none` for a line without tokens
and for a line whose first token starts with `#`. -/
def entryTokens (buf : List Char) : Option (List (List Char)) :=
  match lineTokens buf with
  | [] => none
  | tok :: toks => if tok.head? = some '#' then none else some (tok :: toks)

/-- The entry lines of a file, each as its list of tokens, in order. -/
def entries (lines : List (List Char)) : List (List (List Char)) :=
  lines.filterMap entryTokens

/-- The number of delay tokens of an entry line: the tokens after the size
and the area. -/
def delayCount (toks : List (List Char)) : Nat :=
  toks.length - 2

/-! ## Duplication, built-in libraries, queries -/

/-- `If_Lib_t * If_LutLibDup( If_Lib_t * p )`: `*pNew = *p` and a copy of the
name. -/
def If_LutLibDup {α : Type} (p : If_Lib_t α) : If_Lib_t α :=
  { p with pName := If_UtilStrsav p.pName }

/-- A table given by an initialiser list; the elements not listed are zero. -/
def tableOf {α : Type} [Zero α] (l : List α) : Int → α :=
  fun i => if i < 0 then 0 else l.getD i.toNat 0

/-- A two-dimensional table given by an initialiser list of rows. -/
def rowsOf {α : Type} [Zero α] (l : List (List α)) : Int → Int → α :=
  fun i k => if i < 0 ∨ k < 0 then 0 else (l.getD i.toNat []).getD k.toNat 0

/-- The initialiser `s_LutLib10`. -/
def s_LutLib10 {α : Type} [Zero α] [One α] : If_Lib_t α :=
  { pName := some "lutlib", LutMax := 10, fVarPinDelays := 0
    pLutAreas := tableOf [0,1,1,1,1,1,1,1,1,1,1]
    pLutDelays := rowsOf [[0],[1],[1],[1],[1],[1],[1],[1],[1],[1],[1]] }

/-- The initialiser `s_LutLib9`. -/
def s_LutLib9 {α : Type} [Zero α] [One α] : If_Lib_t α :=
  { pName := some "lutlib", LutMax := 9, fVarPinDelays := 0
    pLutAreas := tableOf [0,1,1,1,1,1,1,1,1,1]
    pLutDelays := rowsOf [[0],[1],[1],[1],[1],[1],[1],[1],[1],[1]] }

/-- The initialiser `s_LutLib8`. -/
def s_LutLib8 {α : Type} [Zero α] [One α] : If_Lib_t α :=
  { pName := some "lutlib", LutMax := 8, fVarPinDelays := 0
    pLutAreas := tableOf [0,1,1,1,1,1,1,1,1]
    pLutDelays := rowsOf [[0],[1],[1],[1],[1],[1],[1],[1],[1]] }

/-- The initialiser `s_LutLib7`. -/
def s_LutLib7 {α : Type} [Zero α] [One α] : If_Lib_t α :=
  { pName := some "lutlib", LutMax := 7, fVarPinDelays := 0
    pLutAreas := tableOf [0,1,1,1,1,1,1,1]
    pLutDelays := rowsOf [[0],[1],[1],[1],[1],[1],[1],[1]] }

/-- The initialiser `s_LutLib6`. -/
def s_LutLib6 {α : Type} [Zero α] [One α] : If_Lib_t α :=
  { pName := some "lutlib", LutMax := 6, fVarPinDelays := 0
    pLutAreas := tableOf [0,1,1,1,1,1,1]
    pLutDelays := rowsOf [[0],[1],[1],[1],[1],[1],[1]] }

/-- The initialiser `s_LutLib5`. -/
def s_LutLib5 {α : Type} [Zero α] [One α] : If_Lib_t α :=
  { pName := some "lutlib", LutMax := 5, fVarPinDelays := 0
    pLutAreas := tableOf [0,1,1,1,1,1]
    pLutDelays := rowsOf [[0],[1],[1],[1],[1],[1]] }

/-- The initialiser `s_LutLib4`. -/
def s_LutLib4 {α : Type} [Zero α] [One α] : If_Lib_t α :=
  { pName := some "lutlib", LutMax := 4, fVarPinDelays := 0
    pLutAreas := tableOf [0,1,1,1,1]
    pLutDelays := rowsOf [[0],[1],[1],[1],[1]] }

/-- The initialiser `s_LutLib3`. -/
def s_LutLib3 {α : Type} [Zero α] [One α] : If_Lib_t α :=
  { pName := some "lutlib", LutMax := 3, fVarPinDelays := 0
    pLutAreas := tableOf [0,1,1,1]
    pLutDelays := rowsOf [[0],[1],[1],[1]] }

/-- The `switch ( nLutSize )` of `If_SetSimpleLutLib`: the preset `pLutLib`
points to, `none` for the `default` case. -/
def simpleLutLibSwitch {α : Type} [Zero α] [One α] (nLutSize : Int) : Option (If_Lib_t α) :=
  if nLutSize = 3 then some s_LutLib3
  else if nLutSize = 4 then some s_LutLib4
  else if nLutSize = 5 then some s_LutLib5
  else if nLutSize = 6 then some s_LutLib6
  else if nLutSize = 7 then some s_LutLib7
  else if nLutSize = 8 then some s_LutLib8
  else if nLutSize = 9 then some s_LutLib9
  else if nLutSize = 10 then some s_LutLib10
  else none

/-- `If_Lib_t * If_SetSimpleLutLib( int nLutSize )`; the failing `assert` is
a fault. -/
def If_SetSimpleLutLib {α : Type} [Zero α] [One α] (nLutSize : Int) : Result α :=
  if ¬ (nLutSize ≥ 3 ∧ nLutSize ≤ 10) then .fault
  else
    match simpleLutLibSwitch nLutSize with
    | none => .null
    | some pLutLib => .lib (If_LutLibDup pLutLib)

/-- `float If_LutLibFastestPinDelay( If_Lib_t * p )`; `none` is the `NULL`
pointer. -/
def If_LutLibFastestPinDelay {α : Type} [One α] (p : Option (If_Lib_t α)) : α :=
  match p with
  | none => 1
  | some q => q.pLutDelays q.LutMax 0

/-- `float If_LutLibSlowestPinDelay( If_Lib_t * p )`; `none` is the `NULL`
pointer. -/
def If_LutLibSlowestPinDelay {α : Type} [One α] (p : Option (If_Lib_t α)) : α :=
  match p with
  | none => 1
  | some q =>
    if q.fVarPinDelays ≠ 0 then q.pLutDelays q.LutMax (q.LutMax - 1)
    else q.pLutDelays q.LutMax 0

/-! ## The check at the end of the reader -/

/-- A warning printed by the check at the end of `If_LutLibRead`: the `printf`
call that printed it, with the values of its arguments. -/
inductive Warning (α : Type) where
  /-- the call with the text `Warning: Pin %d of LUT %d has delay %f. Pin
  delays should be non-negative numbers.` and the arguments `k`, `i`,
  `pLutDelays[i][k]` -/
  | pinDelay (k i : Int) (d : α) : Warning α
  /-- the call with the text `Pin delays should be in non-decreasing order.`
  and the arguments `k-1`, `i`, `pLutDelays[i][k-1]`, `k`, `i`,
  `pLutDelays[i][k]` -/
  | pinOrder (k1 i1 : Int) (d1 : α) (k2 i2 : Int) (d2 : α) : Warning α
  /-- the call with the text `Warning: LUT %d has delay %f.` and the three
  arguments `k`, `i`, `pLutDelays[i][0]` -/
  | lutDelay (k i : Int) (d : α) : Warning α
  deriving DecidableEq

/-- The LUT size a warning is about: the argument `i` of the call. -/
def Warning.size {α : Type} : Warning α → Int
  | .pinDelay _ i _ => i
  | .pinOrder _ _ _ _ i _ => i
  | .lutDelay _ i _ => i

/-- The pin a warning of the variable mode is about: the argument `k` of the
call (the later of the two pins for an ordering warning). -/
def Warning.pin {α : Type} : Warning α → Int
  | .pinDelay k _ _ => k
  | .pinOrder _ _ _ k _ _ => k
  | .lutDelay k _ _ => k

/-- The body of the loop over the pins in variable mode, for pin `k` of the
LUT of size `i`. -/
def checkPin {α : Type} [LinearOrder α] [Zero α] (p : If_Lib_t α) (i k : Int) :
    List (Warning α) :=
  (if p.pLutDelays i k ≤ 0 then [Warning.pinDelay k i (p.pLutDelays i k)] else []) ++
  (if k ≠ 0 ∧ p.pLutDelays i (k - 1) > p.pLutDelays i k then
    [Warning.pinOrder (k - 1) i (p.pLutDelays i (k - 1)) k i (p.pLutDelays i k)]
   else [])

/-- The loop `for ( k = 0; k < i; k++ )` of the check in variable mode. -/
def checkRow {α : Type} [LinearOrder α] [Zero α] (p : If_Lib_t α) (i : Int) :
    List (Warning α) :=
  (List.range i.toNat).flatMap (fun k => checkPin p i (k : Int))

/-- The body of the loop of the check in uniform mode; `k` is the value the
variable `k` holds after the line loop. -/
def checkLut {α : Type} [LinearOrder α] [Zero α] (p : If_Lib_t α) (k i : Int) :
    List (Warning α) :=
  if p.pLutDelays i 0 ≤ 0 then [Warning.lutDelay k i (p.pLutDelays i 0)] else []

/-- The check of the library in `If_LutLibRead` (`// check the library`): the
warnings it prints, in order.  Both branches run
`for ( i = 1; i <= p->LutMax; i++ )`. -/
def checkLib {α : Type} [LinearOrder α] [Zero α] (p : If_Lib_t α) (k : Int) :
    List (Warning α) :=
  if p.fVarPinDelays ≠ 0 then
    (List.range p.LutMax.toNat).flatMap (fun j => checkRow p ((j : Int) + 1))
  else
    (List.range p.LutMax.toNat).flatMap (fun j => checkLut p k ((j : Int) + 1))

/-- The value of the variable `k` after the line loop when every entry line is
passed: the delay count of the last entry line.  Without an entry line the
variable is not initialised; the check then prints nothing. -/
def kAfterLoop (es : List (List (List Char))) : Int :=
  match es.getLast? with
  | some e => (delayCount e : Int)
  | none => 0

/-- The warnings printed by a call of `If_LutLibRead` that reaches the check
of the library.  A call that leaves the line loop early prints an error
message and no warning. -/
def If_LutLibReadWarnings {α : Type} [LinearOrder α] [Zero α] (M : Nat)
    (atoi : List Char → Int) (atof : List Char → α) (FileName : String)
    (file : Option (List Char)) : List (Warning α) :=
  match If_LutLibRead M atoi atof FileName file, file with
  | .lib p, some text => checkLib p (kAfterLoop (entries (fileLines text)))
  | _, _ => []

/-! ## Printing and the discreteness check -/

/-- The loop of `If_LutLibDelaysAreDiscrete` with `n` iterations left at
index `i`; `truncF x` is the value of `(float)((int)x)`. -/
def delaysAreDiscreteLoop {α : Type} [DecidableEq α] (truncF : α → α)
    (pLutLib : If_Lib_t α) : Nat → Int → Int
  | 0, _ => 1
  | n + 1, i =>
    if truncF (pLutLib.pLutDelays i 0) ≠ pLutLib.pLutDelays i 0 then 0
    else delaysAreDiscreteLoop truncF pLutLib n (i + 1)

/-- `int If_LutLibDelaysAreDiscrete( If_Lib_t * pLutLib )`: the loop
`for ( i = 1; i <= pLutLib->LutMax; i++ )` makes `LutMax` iterations (none
when `LutMax` is not positive). -/
def If_LutLibDelaysAreDiscrete {α : Type} [DecidableEq α] (truncF : α → α)
    (pLutLib : If_Lib_t α) : Int :=
  delaysAreDiscreteLoop truncF pLutLib pLutLib.LutMax.toNat 1

/-- Truncation toward zero of a rational, without a bound on the result. -/
def truncQ (q : ℚ) : ℚ :=
  ((q.num.tdiv (q.den : Int) : Int) : ℚ)

/-- A text that `fgets( pBuffer, 1000, pFile )` delivers as one line: it ends
with a newline, has no other newline and at most 999 characters. -/
@[reducible] def IsLine (l : List Char) : Prop :=
  l.getLast? = some '\n' ∧ '\n' ∉ l.dropLast ∧ l.length ≤ 999

/-- A text that `strtok` delivers as one token when delimiters surround it: it
is not empty and has no delimiter and no NUL character. -/
@[reducible] def IsToken (s : List Char) : Prop :=
  s ≠ [] ∧ ∀ c ∈ s, isDelim c = false ∧ c ≠ '\x00'

/-- The lines of a text: a line ends with its newline character; a last line
may be left without one. -/
def textLines : List Char → List (List Char)
  | [] => []
  | c :: s =>
    if c = '\n' then [c] :: textLines s
    else
      match textLines s with
      | [] => [[c]]
      | l :: ls => (c :: l) :: ls

/-- The value of `(float)((int)x)` for a rational `x`: the truncation toward
zero when it fits the 32-bit `int`; otherwise, where the C standard leaves the
conversion undefined, the value `INT_MIN` that the x86 conversion delivers. -/
def castIntQ (q : ℚ) : ℚ :=
  if -(2 ^ 31 : ℚ) - 1 < q ∧ q < 2 ^ 31 then truncQ q else -(2 ^ 31)

/-- The stores of the delay loop without the bound on the row. -/
def storeRow {α : Type} (atof : List Char → α) (i : Nat) :
    List (List Char) → Nat → (Int → Int → α) → (Int → Int → α)
  | [], _, t => t
  | tok :: toks, k, t => storeRow atof i toks (k + 1) (setAt2 t i k (atof tok))

/-- The library after an accepted entry line with tokens `toks` at counter `i`. -/
def storeEntry {α : Type} (atof : List Char → α) (i : Nat) (p : If_Lib_t α)
    (toks : List (List Char)) : If_Lib_t α :=
  match toks with
  | _ :: a :: ds =>
    { p with
      pLutAreas := setAt p.pLutAreas i (atof a)
      pLutDelays := storeRow atof i ds 0 p.pLutDelays
      fVarPinDelays := if ds.length > 1 then 1 else p.fVarPinDelays }
  | _ => p

/-- An entry line the loop body passes at counter `i`: the size token reads
`i`, there is an area token, at most `i` delays, and `i` is below the ceiling. -/
def Accepted (M : Nat) (atoi : List Char → Int) (i : Nat) (toks : List (List Char)) : Prop :=
  match toks with
  | tok :: _ :: ds => atoi tok = (i : Int) ∧ ds.length ≤ i ∧ i < M
  | _ => False

/-- All entry lines of a list are passed, the first at counter `i`. -/
def AllAccepted (M : Nat) (atoi : List Char → Int) :
    List (List (List Char)) → Nat → Prop
  | [], _ => True
  | e :: es, i => Accepted M atoi i e ∧ AllAccepted M atoi es (i + 1)

/-- The library returned when all entry lines are passed. -/
def buildLib {α : Type} (atof : List Char → α) :
    List (List (List Char)) → Nat → If_Lib_t α → If_Lib_t α
  | [], i, p => { p with LutMax := (i : Int) - 1 }
  | e :: es, i, p => buildLib atof es (i + 1) (storeEntry atof i p e)

/-- The line loop on the entry lines alone.  An entry line has a token; a
list without one does not come from a file and is given the fault result. -/
def readEntries {α : Type} (M : Nat) (atoi : List Char → Int) (atof : List Char → α) :
    List (List (List Char)) → Nat → If_Lib_t α → Result α
  | [], i, p => .lib { p with LutMax := (i : Int) - 1 }
  | [] :: _, _, _ => .fault
  | (tok :: toks) :: es, i, p =>
    match readEntry M atoi atof i p tok toks with
    | .stop r => r
    | .next q => readEntries M atoi atof es (i + 1) q

/-! ## The C library models: enough calls are made -/

theorem fgetsAux_length (room : Nat) (s : List Char) :
    (fgetsAux room s).2.length + (fgetsAux room s).1.length = s.length := by
  induction room generalizing s with
  | zero => simp [fgetsAux]
  | succ r ih =>
    cases s with
    | nil => simp [fgetsAux]
    | cons c s =>
      by_cases hc : c = '\n'
      · simp [fgetsAux, hc]
      · simp only [fgetsAux, hc, if_false, List.length_cons]
        have := ih s
        omega

theorem fgetsAux_ne_nil (room : Nat) (c : Char) (s : List Char) :
    (fgetsAux (room + 1) (c :: s)).1 ≠ [] := by
  by_cases hc : c = '\n' <;> simp [fgetsAux, hc]

theorem fileLinesAux_succ (fuel : Nat) (s : List Char) (h : s.length ≤ fuel) :
    fileLinesAux (fuel + 1) s = fileLinesAux fuel s := by
  induction fuel generalizing s with
  | zero =>
    have : s = [] := List.length_eq_zero.mp (by omega)
    subst this; rfl
  | succ f ih =>
    cases s with
    | nil => simp [fileLinesAux, fgets]
    | cons c s =>
      have hlen := fgetsAux_length 999 (c :: s)
      have hpos : 0 < (fgetsAux 999 (c :: s)).1.length :=
        List.length_pos.mpr (fgetsAux_ne_nil 998 c s)
      simp only [List.length_cons] at hlen h
      have h2 := ih (fgetsAux 999 (c :: s)).2 (by omega)
      rw [fileLinesAux, fileLinesAux.eq_2 _ f]
      simp only [fgets, Nat.reduceSub]
      rw [h2]

/-- More calls of `fgets` than the file has characters change nothing: the
loop has met the end of the file. -/
theorem fileLinesAux_fuel (fuel : Nat) (s : List Char) (h : s.length ≤ fuel) :
    fileLinesAux fuel s = fileLines s := by
  unfold fileLines
  obtain ⟨d, rfl⟩ := Nat.exists_eq_add_of_le h
  induction d with
  | zero => rfl
  | succ d ih =>
    rw [← Nat.add_assoc, fileLinesAux_succ _ _ (by omega)]
    exact ih (by omega)

theorem strtok_length (s tok rest : List Char) (h : strtok s = some (tok, rest)) :
    rest.length < s.length := by
  unfold strtok at h
  split at h
  · exact absurd h (by simp)
  · rename_i c r hd
    simp only [Option.some.injEq, Prod.mk.injEq] at h
    obtain ⟨-, rfl⟩ := h
    have h1 : (s.dropWhile isDelim).length ≤ s.length :=
      (List.dropWhile_sublist _).length_le
    have h2 : (List.dropWhile (fun x => !isDelim x) (c :: r)).length ≤ (c :: r).length :=
      (List.dropWhile_sublist _).length_le
    rw [hd] at h1
    simp only [List.length_drop, List.length_cons] at *
    omega

theorem tokensAux_succ (fuel : Nat) (s : List Char) (h : s.length ≤ fuel) :
    tokensAux (fuel + 1) s = tokensAux fuel s := by
  induction fuel generalizing s with
  | zero =>
    have : s = [] := List.length_eq_zero.mp (by omega)
    subst this; rfl
  | succ f ih =>
    rw [tokensAux, tokensAux.eq_2 _ f]
    cases hs : strtok s with
    | none => rfl
    | some tr =>
      obtain ⟨tok, rest⟩ := tr
      have := strtok_length s tok rest hs
      simp only
      rw [ih rest (by omega)]

/-- More calls of `strtok` than the string has characters change nothing:
the loop has met the `NULL` result. -/
theorem tokensAux_fuel (fuel : Nat) (s : List Char) (h : s.length ≤ fuel) :
    tokensAux fuel s = tokens s := by
  unfold tokens
  obtain ⟨d, rfl⟩ := Nat.exists_eq_add_of_le h
  induction d with
  | zero => rfl
  | succ d ih =>
    rw [← Nat.add_assoc, tokensAux_succ _ _ (by omega)]
    exact ih (by omega)

/-! ## The lines of the input and the buffers of `fgets` -/

theorem textLines_eq_nil (s : List Char) : textLines s = [] ↔ s = [] := by
  cases s with
  | nil => simp [textLines]
  | cons c s =>
    simp only [textLines, reduceCtorEq, iff_false]
    split
    · simp
    · split <;> simp

theorem fgetsAux_nil (room : Nat) : fgetsAux room [] = ([], []) := by
  cases room <;> rfl

/-- A first line that fits the room of the buffer is what `fgets` delivers,
and the lines after it are the lines of what is left in the file. -/
theorem fgetsAux_textLines (s : List Char) (room : Nat) (l : List Char)
    (ls : List (List Char)) (h : textLines s = l :: ls) (hlen : l.length ≤ room) :
    (fgetsAux room s).1 = l ∧ textLines (fgetsAux room s).2 = ls := by
  induction s generalizing room l ls with
  | nil => simp [textLines] at h
  | cons c s ih =>
    by_cases hc : c = '\n'
    · rw [textLines, if_pos hc] at h
      simp only [List.cons.injEq] at h
      obtain ⟨rfl, rfl⟩ := h
      cases room with
      | zero => simp at hlen
      | succ r => simp [fgetsAux, hc]
    · rw [textLines, if_neg hc] at h
      cases hs : textLines s with
      | nil =>
        rw [hs] at h
        simp only [List.cons.injEq] at h
        obtain ⟨rfl, rfl⟩ := h
        have hnil := (textLines_eq_nil s).mp hs
        subst hnil
        cases room with
        | zero => simp at hlen
        | succ r => simp [fgetsAux, hc, fgetsAux_nil, textLines]
      | cons l1 ls1 =>
        rw [hs] at h
        simp only [List.cons.injEq] at h
        obtain ⟨rfl, rfl⟩ := h
        cases room with
        | zero => simp at hlen
        | succ r =>
          simp only [List.length_cons] at hlen
          obtain ⟨h1, h2⟩ := ih r l1 ls1 hs (by omega)
          simp only [fgetsAux, if_neg hc]
          exact ⟨by rw [h1], h2⟩

theorem fileLinesAux_eq_textLines (fuel : Nat) (s : List Char) (h : s.length ≤ fuel)
    (hshort : ∀ l ∈ textLines s, l.length ≤ 999) :
    fileLinesAux fuel s = textLines s := by
  induction fuel generalizing s with
  | zero =>
    have : s = [] := List.length_eq_zero.mp (by omega)
    subst this; rfl
  | succ f ih =>
    cases s with
    | nil => simp [fileLinesAux, fgets, textLines]
    | cons c s =>
      cases hs : textLines (c :: s) with
      | nil => exact absurd ((textLines_eq_nil _).mp hs) (by simp)
      | cons l ls =>
        rw [hs] at hshort
        obtain ⟨h1, h2⟩ := fgetsAux_textLines (c :: s) 999 l ls hs
          (hshort l (List.mem_cons_self _ _))
        have hlen := fgetsAux_length 999 (c :: s)
        have hpos : 0 < (fgetsAux 999 (c :: s)).1.length :=
          List.length_pos.mpr (fgetsAux_ne_nil 998 c s)
        simp only [List.length_cons] at hlen h
        have h3 := ih (fgetsAux 999 (c :: s)).2 (by omega)
          (by rw [h2]; exact fun x hx => hshort x (List.mem_cons_of_mem _ hx))
        rw [fileLinesAux]
        simp only [fgets, Nat.reduceSub]
        rw [h3, h1, h2]

/-- When no line of the input has more than 999 characters, the buffers that
the calls of `fgets` deliver are the lines of the input. -/
theorem fileLines_eq_textLines (s : List Char)
    (hshort : ∀ l ∈ textLines s, l.length ≤ 999) :
    fileLines s = textLines s :=
  fileLinesAux_eq_textLines s.length s (Nat.le_refl _) hshort

/-- A text without a newline is one line. -/
theorem textLines_of_no_newline (body : List Char) (h : '\n' ∉ body) (hne : body ≠ []) :
    textLines body = [body] := by
  induction body with
  | nil => exact absurd rfl hne
  | cons c t ih =>
    have hc : c ≠ '\n' := fun e => h (by simp [e])
    have ht : '\n' ∉ t := fun e => h (List.mem_cons_of_mem _ e)
    rw [textLines, if_neg hc]
    cases t with
    | nil => rfl
    | cons d t => rw [ih ht (by simp)]

/-- The first line of a text ends at the first newline. -/
theorem textLines_line_append (body rest : List Char) (h : '\n' ∉ body) :
    textLines (body ++ '\n' :: rest) = (body ++ ['\n']) :: textLines rest := by
  induction body with
  | nil => rw [List.nil_append, textLines, if_pos rfl]; rfl
  | cons c t ih =>
    have hc : c ≠ '\n' := fun e => h (by simp [e])
    have ht : '\n' ∉ t := fun e => h (List.mem_cons_of_mem _ e)
    rw [List.cons_append, textLines, if_neg hc, ih ht]
    rfl

/-! ## The delay loop and the loop body -/

theorem readDelays_some {α : Type} (M : Nat) (atof : List Char → α) (i : Nat)
    (ds : List (List Char)) (k : Nat) (t t' : Int → Int → α) (k' : Nat)
    (h : readDelays M atof i ds k t = some (t', k')) :
    t' = storeRow atof i ds k t ∧ k' = k + ds.length := by
  induction ds generalizing k t with
  | nil =>
    simp only [readDelays, Option.some.injEq, Prod.mk.injEq] at h
    simp [storeRow, h.1, h.2]
  | cons d ds ih =>
    simp only [readDelays] at h
    split at h
    · obtain ⟨h1, h2⟩ := ih _ _ h
      refine ⟨by simpa [storeRow] using h1, ?_⟩
      simp only [List.length_cons]; omega
    · exact absurd h (by simp)

theorem readDelays_ok {α : Type} (M : Nat) (atof : List Char → α) (i : Nat)
    (ds : List (List Char)) (k : Nat) (t : Int → Int → α)
    (hi : i ≤ M) (hk : k + ds.length ≤ M + 1) :
    readDelays M atof i ds k t = some (storeRow atof i ds k t, k + ds.length) := by
  induction ds generalizing k t with
  | nil => simp [readDelays, storeRow]
  | cons d ds ih =>
    simp only [List.length_cons] at hk
    have hkM : k ≤ M := by omega
    simp only [readDelays, hi, hkM, and_self, if_true, storeRow]
    rw [ih (k + 1) _ (by omega)]
    simp only [List.length_cons]
    congr 2; omega

theorem storeRow_other {α : Type} (atof : List Char → α) (i : Nat)
    (ds : List (List Char)) (k : Nat) (t : Int → Int → α) (j m : Int)
    (h : j ≠ (i : Int) ∨ m < (k : Int)) :
    storeRow atof i ds k t j m = t j m := by
  induction ds generalizing k t with
  | nil => rfl
  | cons d ds ih =>
    simp only [storeRow]
    rw [ih (k + 1) _ (by rcases h with h | h; exact Or.inl h; right; push_cast; omega)]
    unfold setAt2
    rw [if_neg]
    rintro ⟨h1, h2⟩
    rcases h with h | h
    · exact h h1
    · omega

theorem storeRow_at {α : Type} (atof : List Char → α) (i : Nat)
    (ds : List (List Char)) (k : Nat) (t : Int → Int → α) (m : Nat) (d : List Char)
    (h : ds[m]? = some d) :
    storeRow atof i ds k t (i : Int) ((k + m : Nat) : Int) = atof d := by
  induction ds generalizing k t m with
  | nil => simp at h
  | cons d0 ds ih =>
    cases m with
    | zero =>
      simp only [List.getElem?_cons_zero, Option.some.injEq] at h
      subst h
      simp only [storeRow, Nat.add_zero]
      rw [storeRow_other atof i ds (k + 1) _ _ _ (by right; push_cast; omega)]
      simp [setAt2]
    | succ m =>
      simp only [List.getElem?_cons_succ] at h
      simp only [storeRow]
      have := ih (k + 1) (setAt2 t i k (atof d0)) m h
      rw [show k + (m + 1) = k + 1 + m by omega]
      exact this

theorem readEntry_next_iff {α : Type} (M : Nat) (atoi : List Char → Int)
    (atof : List Char → α) (i : Nat) (p q : If_Lib_t α) (tok : List Char)
    (toks : List (List Char)) :
    readEntry M atoi atof i p tok toks = .next q ↔
      Accepted M atoi i (tok :: toks) ∧ q = storeEntry atof i p (tok :: toks) := by
  unfold readEntry
  by_cases h1 : (i : Int) ≠ atoi tok
  · rw [if_pos h1]
    constructor
    · intro h; exact absurd h (by simp)
    · rintro ⟨h, -⟩
      cases toks with
      | nil => exact absurd h (by simp [Accepted])
      | cons a ds => exact absurd h.1.symm h1
  · rw [if_neg h1]
    have h1' : atoi tok = (i : Int) := by
      by_contra hne; exact h1 (fun h => hne h.symm)
    cases toks with
    | nil => simp [Accepted]
    | cons a ds =>
      simp only
      by_cases h2 : M < i
      · rw [if_pos h2]
        constructor
        · intro h; exact absurd h (by simp)
        · rintro ⟨h, -⟩
          simp only [Accepted] at h
          omega
      · rw [if_neg h2]
        cases hrd : readDelays M atof i ds 0 p.pLutDelays with
        | none =>
          simp only
          constructor
          · intro h; exact absurd h (by simp)
          · rintro ⟨h, -⟩
            simp only [Accepted] at h
            rw [readDelays_ok M atof i ds 0 _ (by omega) (by omega)] at hrd
            exact absurd hrd (by simp)
        | some tk =>
          obtain ⟨t, k⟩ := tk
          obtain ⟨ht, hk⟩ := readDelays_some M atof i ds 0 _ _ _ hrd
          simp only [Nat.zero_add] at hk
          subst ht hk
          simp only
          by_cases h3 : ds.length > i
          · rw [if_pos h3]
            constructor
            · intro h; exact absurd h (by simp)
            · rintro ⟨h, -⟩
              simp only [Accepted] at h
              omega
          · rw [if_neg h3]
            by_cases h4 : i = M
            · rw [if_pos h4]
              constructor
              · intro h; exact absurd h (by simp)
              · rintro ⟨h, -⟩
                simp only [Accepted] at h
                omega
            · rw [if_neg h4]
              simp only [Step.next.injEq, Accepted, storeEntry]
              constructor
              · intro h
                exact ⟨⟨h1', by omega, by omega⟩, h.symm⟩
              · rintro ⟨-, h⟩
                exact h.symm

theorem readEntry_stop_ne_lib {α : Type} (M : Nat) (atoi : List Char → Int)
    (atof : List Char → α) (i : Nat) (p : If_Lib_t α) (tok : List Char)
    (toks : List (List Char)) (r : Result α)
    (h : readEntry M atoi atof i p tok toks = .stop r) (q : If_Lib_t α) :
    r ≠ .lib q := by
  unfold readEntry at h
  rintro rfl
  split at h
  · simp at h
  · split at h
    · simp at h
    · split at h
      · simp at h
      · split at h
        · simp at h
        · split at h
          · simp at h
          · split at h <;> simp at h

/-! ## The line loop -/

theorem entryTokens_ne_nil (buf : List Char) (e : List (List Char))
    (h : entryTokens buf = some e) : e ≠ [] := by
  unfold entryTokens at h
  split at h
  · simp at h
  · split at h
    · simp at h
    · simp only [Option.some.injEq] at h
      subst h; simp

/-- The loop sees a file only through its entry lines. -/
theorem readLoop_eq_readEntries {α : Type} (M : Nat) (atoi : List Char → Int)
    (atof : List Char → α) (lines : List (List Char)) (i : Nat) (p : If_Lib_t α) :
    readLoop M atoi atof lines i p = readEntries M atoi atof (entries lines) i p := by
  induction lines generalizing i p with
  | nil => rfl
  | cons buf rest ih =>
    unfold entries at ih ⊢
    rw [readLoop, List.filterMap_cons]
    unfold entryTokens
    cases hl : lineTokens buf with
    | nil => simpa using ih i p
    | cons tok toks =>
      by_cases hc : tok.head? = some '#'
      · simp only [hc, if_true]
        exact ih i p
      · simp only [hc, if_false]
        rw [readEntries]
        cases readEntry M atoi atof i p tok toks with
        | stop r => rfl
        | next q => exact ih (i + 1) q

theorem readEntries_eq_lib_iff {α : Type} (M : Nat) (atoi : List Char → Int)
    (atof : List Char → α) (es : List (List (List Char))) (i : Nat)
    (p q : If_Lib_t α) :
    readEntries M atoi atof es i p = .lib q ↔
      AllAccepted M atoi es i ∧ q = buildLib atof es i p := by
  induction es generalizing i p with
  | nil =>
    simp only [readEntries, AllAccepted, buildLib, Result.lib.injEq, true_and]
    exact eq_comm
  | cons e es ih =>
    cases e with
    | nil => simp [readEntries, AllAccepted, Accepted]
    | cons tok toks =>
      rw [readEntries, AllAccepted, buildLib]
      cases hre : readEntry M atoi atof i p tok toks with
      | stop r =>
        simp only
        constructor
        · intro h
          exact absurd h (readEntry_stop_ne_lib M atoi atof i p tok toks r hre q)
        · rintro ⟨⟨hacc, -⟩, -⟩
          have := (readEntry_next_iff M atoi atof i p _ tok toks).mpr ⟨hacc, rfl⟩
          rw [hre] at this
          exact absurd this (by simp)
      | next p1 =>
        obtain ⟨hacc, hp1⟩ := (readEntry_next_iff M atoi atof i p p1 tok toks).mp hre
        simp only
        rw [ih (i + 1) p1, hp1]
        exact ⟨fun h => ⟨⟨hacc, h.1⟩, h.2⟩, fun h => ⟨h.1.2, h.2⟩⟩

/-- The reader returns a library exactly when every entry line is passed,
and then it is the library built from the entry lines. -/
theorem If_LutLibRead_eq_lib_iff {α : Type} [Zero α] (M : Nat) (atoi : List Char → Int)
    (atof : List Char → α) (FileName : String) (text : List Char) (q : If_Lib_t α) :
    If_LutLibRead M atoi atof FileName (some text) = .lib q ↔
      AllAccepted M atoi (entries (fileLines text)) 1 ∧
        q = buildLib atof (entries (fileLines text)) 1 (newLib FileName) := by
  unfold If_LutLibRead
  simp only
  rw [readLoop_eq_readEntries, readEntries_eq_lib_iff]

theorem allAccepted_iff (M : Nat) (atoi : List Char → Int)
    (es : List (List (List Char))) (i : Nat) :
    AllAccepted M atoi es i ↔ ∀ j e, es[j]? = some e → Accepted M atoi (i + j) e := by
  induction es generalizing i with
  | nil => simp [AllAccepted]
  | cons e0 es ih =>
    rw [AllAccepted, ih]
    constructor
    · rintro ⟨h0, h⟩ j e hj
      cases j with
      | zero =>
        simp only [List.getElem?_cons_zero, Option.some.injEq] at hj
        subst hj; exact h0
      | succ j =>
        simp only [List.getElem?_cons_succ] at hj
        have := h j e hj
        rwa [show i + 1 + j = i + (j + 1) by omega] at this
    · intro h
      refine ⟨h 0 e0 (by simp), fun j e hj => ?_⟩
      have := h (j + 1) e (by simpa using hj)
      rwa [show i + (j + 1) = i + 1 + j by omega] at this

/-! ## The library built from the entry lines -/

theorem buildLib_LutMax {α : Type} (atof : List Char → α)
    (es : List (List (List Char))) (i : Nat) (p : If_Lib_t α) :
    (buildLib atof es i p).LutMax = (i : Int) + es.length - 1 := by
  induction es generalizing i p with
  | nil => simp [buildLib]
  | cons e es ih =>
    rw [buildLib, ih]
    simp only [List.length_cons]; push_cast; ring

theorem buildLib_pName {α : Type} (atof : List Char → α)
    (es : List (List (List Char))) (i : Nat) (p : If_Lib_t α) :
    (buildLib atof es i p).pName = p.pName := by
  induction es generalizing i p with
  | nil => simp [buildLib]
  | cons e es ih =>
    rw [buildLib, ih]
    unfold storeEntry
    split <;> rfl

theorem storeEntry_fVar {α : Type} (atof : List Char → α) (i : Nat) (p : If_Lib_t α)
    (e : List (List Char)) :
    (storeEntry atof i p e).fVarPinDelays =
      if 1 < delayCount e then 1 else p.fVarPinDelays := by
  unfold storeEntry delayCount
  split
  · simp
  · rename_i h
    have : ¬ 1 < e.length - 2 := by
      intro hlt
      match e, h with
      | [], _ => simp at hlt
      | [_], _ => simp at hlt
      | x :: y :: zs, h => exact h x y zs rfl
    rw [if_neg this]

theorem buildLib_fVar {α : Type} (atof : List Char → α)
    (es : List (List (List Char))) (i : Nat) (p : If_Lib_t α) :
    (buildLib atof es i p).fVarPinDelays =
      if (∃ e ∈ es, 1 < delayCount e) then 1 else p.fVarPinDelays := by
  induction es generalizing i p with
  | nil => simp [buildLib]
  | cons e es ih =>
    rw [buildLib, ih, storeEntry_fVar]
    by_cases h1 : ∃ e ∈ es, 1 < delayCount e
    · have : ∃ e' ∈ e :: es, 1 < delayCount e' := by
        obtain ⟨x, hx, hd⟩ := h1
        exact ⟨x, List.mem_cons_of_mem _ hx, hd⟩
      rw [if_pos h1, if_pos this]
    · rw [if_neg h1]
      by_cases h2 : 1 < delayCount e
      · rw [if_pos h2, if_pos ⟨e, List.mem_cons_self _ _, h2⟩]
      · rw [if_neg h2, if_neg]
        rintro ⟨x, hx, hd⟩
        rcases List.mem_cons.mp hx with rfl | hx
        · exact h2 hd
        · exact h1 ⟨x, hx, hd⟩

theorem storeEntry_areas_ne {α : Type} (atof : List Char → α) (i : Nat) (p : If_Lib_t α)
    (e : List (List Char)) (m : Int) (h : m ≠ (i : Int)) :
    (storeEntry atof i p e).pLutAreas m = p.pLutAreas m := by
  unfold storeEntry
  split
  · simp [setAt, h]
  · rfl

theorem storeEntry_delays_ne {α : Type} (atof : List Char → α) (i : Nat) (p : If_Lib_t α)
    (e : List (List Char)) (m k : Int) (h : m ≠ (i : Int)) :
    (storeEntry atof i p e).pLutDelays m k = p.pLutDelays m k := by
  unfold storeEntry
  split
  · exact storeRow_other atof i _ 0 _ m k (Or.inl h)
  · rfl

theorem buildLib_areas_lt {α : Type} (atof : List Char → α)
    (es : List (List (List Char))) (i : Nat) (p : If_Lib_t α) (m : Int)
    (h : m < (i : Int)) :
    (buildLib atof es i p).pLutAreas m = p.pLutAreas m := by
  induction es generalizing i p with
  | nil => simp [buildLib]
  | cons e es ih =>
    rw [buildLib, ih (i + 1) _ (by push_cast; omega),
      storeEntry_areas_ne atof i p e m (by omega)]

theorem buildLib_delays_lt {α : Type} (atof : List Char → α)
    (es : List (List (List Char))) (i : Nat) (p : If_Lib_t α) (m k : Int)
    (h : m < (i : Int)) :
    (buildLib atof es i p).pLutDelays m k = p.pLutDelays m k := by
  induction es generalizing i p with
  | nil => simp [buildLib]
  | cons e es ih =>
    rw [buildLib, ih (i + 1) _ (by push_cast; omega),
      storeEntry_delays_ne atof i p e m k (by omega)]

theorem buildLib_area_at {α : Type} (atof : List Char → α)
    (es : List (List (List Char))) (i : Nat) (p : If_Lib_t α) (j : Nat)
    (tok a : List Char) (ds : List (List Char))
    (h : es[j]? = some (tok :: a :: ds)) :
    (buildLib atof es i p).pLutAreas ((i + j : Nat) : Int) = atof a := by
  induction es generalizing i p j with
  | nil => simp at h
  | cons e es ih =>
    cases j with
    | zero =>
      simp only [List.getElem?_cons_zero, Option.some.injEq] at h
      subst h
      rw [buildLib, buildLib_areas_lt atof es (i + 1) _ _ (by push_cast; omega)]
      simp [storeEntry, setAt]
    | succ j =>
      simp only [List.getElem?_cons_succ] at h
      rw [buildLib, show i + (j + 1) = i + 1 + j by omega]
      exact ih (i + 1) _ j h

theorem buildLib_delay_at {α : Type} (atof : List Char → α)
    (es : List (List (List Char))) (i : Nat) (p : If_Lib_t α) (j : Nat)
    (tok a : List Char) (ds : List (List Char)) (m : Nat) (d : List Char)
    (h : es[j]? = some (tok :: a :: ds)) (hd : ds[m]? = some d) :
    (buildLib atof es i p).pLutDelays ((i + j : Nat) : Int) (m : Int) = atof d := by
  induction es generalizing i p j with
  | nil => simp at h
  | cons e es ih =>
    cases j with
    | zero =>
      simp only [List.getElem?_cons_zero, Option.some.injEq] at h
      subst h
      rw [buildLib, buildLib_delays_lt atof es (i + 1) _ _ _ (by push_cast; omega)]
      simp only [storeEntry, Nat.add_zero]
      have := storeRow_at atof i ds 0 p.pLutDelays m d hd
      simpa using this
    | succ j =>
      simp only [List.getElem?_cons_succ] at h
      rw [buildLib, show i + (j + 1) = i + 1 + j by omega]
      exact ih (i + 1) _ j h

theorem entryTokens_of_skipped (l : List Char)
    (h : lineTokens l = [] ∨ ∃ tok toks, lineTokens l = tok :: toks ∧ tok.head? = some '#') :
    entryTokens l = none := by
  unfold entryTokens
  rcases h with h | ⟨tok, toks, h, hc⟩
  · rw [h]
  · rw [h]; simp [hc]

theorem entries_skip (pre post : List (List Char)) (l : List Char)
    (h : entryTokens l = none) :
    entries (pre ++ l :: post) = entries (pre ++ post) := by
  unfold entries
  rw [List.filterMap_append, List.filterMap_cons, h, List.filterMap_append]

/-- When the entry lines up to the one for size `IF_MAX_LUTSIZE` are all well
formed, the reader ends with `NULL` at that line. -/
theorem readEntries_ceiling_null {α : Type} (M : Nat) (atoi : List Char → Int)
    (atof : List Char → α) (n : Nat) (es : List (List (List Char))) (i : Nat)
    (p : If_Lib_t α) (hn : i + n = M)
    (hwf : ∀ j, j ≤ n → ∃ tok a ds, es[j]? = some (tok :: a :: ds) ∧
      atoi tok = ((i + j : Nat) : Int) ∧ ds.length ≤ i + j) :
    readEntries M atoi atof es i p = .null := by
  induction n generalizing es i p with
  | zero =>
    obtain ⟨tok, a, ds, he, hat, hds⟩ := hwf 0 (le_refl 0)
    cases es with
    | nil => simp at he
    | cons e es =>
      simp only [List.getElem?_cons_zero, Option.some.injEq] at he
      subst he
      simp only [Nat.add_zero] at hat hds hn
      rw [readEntries]
      unfold readEntry
      rw [if_neg (show ¬ ((i : Int) ≠ atoi tok) by rw [hat]; simp)]
      dsimp only
      rw [if_neg (show ¬ M < i by omega),
        readDelays_ok M atof i ds 0 _ (by omega) (by omega)]
      dsimp only
      rw [Nat.zero_add, if_neg (show ¬ ds.length > i by omega), if_pos hn]
  | succ n ih =>
    obtain ⟨tok, a, ds, he, hat, hds⟩ := hwf 0 (by omega)
    cases es with
    | nil => simp at he
    | cons e es =>
      simp only [List.getElem?_cons_zero, Option.some.injEq] at he
      subst he
      simp only [Nat.add_zero] at hat hds
      have hacc : Accepted M atoi i (tok :: a :: ds) := ⟨hat, hds, by omega⟩
      have hnext := (readEntry_next_iff M atoi atof i p _ tok (a :: ds)).mpr ⟨hacc, rfl⟩
      rw [readEntries, hnext]
      simp only
      refine ih es (i + 1) _ (by omega) (fun j hj => ?_)
      obtain ⟨tok', a', ds', he', hat', hds'⟩ := hwf (j + 1) (by omega)
      simp only [List.getElem?_cons_succ] at he'
      refine ⟨tok', a', ds', he', ?_, ?_⟩
      · rw [hat']; congr 1; omega
      · omega

/-! ## Properties of `If_LutLibRead` -/

/-- Well-formed buffers are read into the described library.  If the entry
lines among the buffers that `fgets` delivers (the buffers that have a token
and whose first token does not start with `#`), numbered `1..n` with
`n < IF_MAX_LUTSIZE`, each have a first token that `atoi` reads as the number,
an area token and at most as many delay tokens as the number, then
`If_LutLibRead` returns a library with `LutMax = n`, `pLutAreas[j]` the value
of the area token of entry `j` and `pLutDelays[j][m]` the value of its `m`-th
delay token. -/
theorem buffers_wellformed {α : Type} [Zero α] (M : Nat)
    (atoi : List Char → Int) (atof : List Char → α) (FileName : String)
    (text : List Char)
    (hn : (entries (fileLines text)).length < M)
    (hwf : ∀ j, j < (entries (fileLines text)).length →
      ∃ tok a ds, (entries (fileLines text))[j]? = some (tok :: a :: ds) ∧
        atoi tok = ((j + 1 : Nat) : Int) ∧ ds.length ≤ j + 1) :
    ∃ p, If_LutLibRead M atoi atof FileName (some text) = .lib p ∧
      p.LutMax = ((entries (fileLines text)).length : Int) ∧
      ∀ j tok a ds, (entries (fileLines text))[j]? = some (tok :: a :: ds) →
        p.pLutAreas ((j + 1 : Nat) : Int) = atof a ∧
        ∀ (m : Nat) (d : List Char), ds[m]? = some d →
          p.pLutDelays ((j + 1 : Nat) : Int) (m : Int) = atof d := by
  have hacc : AllAccepted M atoi (entries (fileLines text)) 1 := by
    rw [allAccepted_iff]
    intro j e hj
    have hlt : j < (entries (fileLines text)).length := by
      by_contra hge
      rw [List.getElem?_eq_none (by omega)] at hj
      exact absurd hj (by simp)
    obtain ⟨tok, a, ds, he, hat, hds⟩ := hwf j hlt
    rw [he] at hj
    simp only [Option.some.injEq] at hj
    subst hj
    refine ⟨?_, by omega, by omega⟩
    rw [hat]; congr 1; omega
  refine ⟨_, (If_LutLibRead_eq_lib_iff M atoi atof FileName text _).mpr ⟨hacc, rfl⟩, ?_, ?_⟩
  · rw [buildLib_LutMax]; push_cast; ring
  · intro j tok a ds hj
    constructor
    · rw [show j + 1 = 1 + j by omega]
      exact buildLib_area_at atof _ 1 _ j tok a ds hj
    · intro m d hd
      rw [show j + 1 = 1 + j by omega]
      exact buildLib_delay_at atof _ 1 _ j tok a ds m d hj hd

/-- Too many delay values in a buffer are fatal.  If some entry line among
the buffers that `fgets` delivers carries more delay tokens than its size (its
position among the entries, or the number its first token reads as),
`If_LutLibRead` returns no library; so in every library it returns, each entry
has its position as size token and at most that many delay tokens. -/
theorem buffers_too_many_delays {α : Type} [Zero α] (M : Nat)
    (atoi : List Char → Int) (atof : List Char → α) (FileName : String)
    (text : List Char) :
    (∀ j toks, (entries (fileLines text))[j]? = some toks →
      (j + 1 < delayCount toks ∨
        ∃ tok rest, toks = tok :: rest ∧ atoi tok < (delayCount toks : Int)) →
      ∀ p, If_LutLibRead M atoi atof FileName (some text) ≠ .lib p) ∧
    (∀ p, If_LutLibRead M atoi atof FileName (some text) = .lib p →
      ∀ j toks, (entries (fileLines text))[j]? = some toks →
        delayCount toks ≤ j + 1 ∧ toks.head?.map atoi = some ((j + 1 : Nat) : Int)) := by
  have key : ∀ p, If_LutLibRead M atoi atof FileName (some text) = .lib p →
      ∀ j toks, (entries (fileLines text))[j]? = some toks →
        delayCount toks ≤ j + 1 ∧ toks.head?.map atoi = some ((j + 1 : Nat) : Int) := by
    intro p hp j toks hj
    have hacc := ((If_LutLibRead_eq_lib_iff M atoi atof FileName text p).mp hp).1
    rw [allAccepted_iff] at hacc
    have h := hacc j _ hj
    match toks, h with
    | tok :: a :: ds, h =>
      obtain ⟨h1, h2, -⟩ := h
      refine ⟨by simp only [delayCount, List.length_cons]; omega, ?_⟩
      simp only [List.head?_cons, Option.map_some', Option.some.injEq]
      rw [h1]; congr 1; omega
  refine ⟨?_, key⟩
  intro j toks hj hk p hp
  obtain ⟨h1, h2⟩ := key p hp j toks hj
  rcases hk with hk | ⟨tok, rest, rfl, hk⟩
  · omega
  · simp only [List.head?_cons, Option.map_some', Option.some.injEq] at h2
    rw [h2] at hk
    have : j + 1 < delayCount (tok :: rest) := by exact_mod_cast hk
    omega

/-- C4: the size ceiling.  With `IF_MAX_LUTSIZE` positive, an input with an
entry line for size `IF_MAX_LUTSIZE` yields no library; every library returned
has `LutMax < IF_MAX_LUTSIZE` and `LutMax` counts all entry lines of the input
(none is cut off); and when the entry lines up to that size are well formed
the reader returns `NULL`. -/
theorem If_LutLibRead_size_ceiling {α : Type} [Zero α] (M : Nat)
    (atoi : List Char → Int) (atof : List Char → α) (FileName : String)
    (text : List Char) (hM : 0 < M) :
    (M ≤ (entries (fileLines text)).length →
      ∀ p, If_LutLibRead M atoi atof FileName (some text) ≠ .lib p) ∧
    (∀ p, If_LutLibRead M atoi atof FileName (some text) = .lib p →
      p.LutMax < (M : Int) ∧ p.LutMax = ((entries (fileLines text)).length : Int)) ∧
    ((∀ j, j < M → ∃ tok a ds,
        (entries (fileLines text))[j]? = some (tok :: a :: ds) ∧
          atoi tok = ((j + 1 : Nat) : Int) ∧ ds.length ≤ j + 1) →
      If_LutLibRead M atoi atof FileName (some text) = .null) := by
  have key : ∀ p, If_LutLibRead M atoi atof FileName (some text) = .lib p →
      p.LutMax < (M : Int) ∧ p.LutMax = ((entries (fileLines text)).length : Int) := by
    intro p hp
    obtain ⟨hacc, rfl⟩ := (If_LutLibRead_eq_lib_iff M atoi atof FileName text p).mp hp
    have hmax : (buildLib atof (entries (fileLines text)) 1 (newLib FileName)).LutMax
        = ((entries (fileLines text)).length : Int) := by
      rw [buildLib_LutMax]; push_cast; ring
    refine ⟨?_, hmax⟩
    rw [hmax]
    rw [allAccepted_iff] at hacc
    cases hlen : (entries (fileLines text)).length with
    | zero => exact_mod_cast hM
    | succ n =>
      have hn : n < (entries (fileLines text)).length := by omega
      have h := hacc n _ (List.getElem?_eq_getElem hn)
      generalize (entries (fileLines text))[n] = e at h
      match e, h with
      | tok :: a :: ds, h =>
        have := h.2.2
        exact_mod_cast (show n + 1 < M by omega)
  refine ⟨?_, key, ?_⟩
  · intro hlen p hp
    obtain ⟨h1, h2⟩ := key p hp
    rw [h2] at h1
    have : (entries (fileLines text)).length < M := by exact_mod_cast h1
    omega
  · intro hwf
    unfold If_LutLibRead
    simp only
    rw [readLoop_eq_readEntries]
    refine readEntries_ceiling_null M atoi atof (M - 1) _ 1 _ (by omega) (fun j hj => ?_)
    obtain ⟨tok, a, ds, he, hat, hds⟩ := hwf j (by omega)
    refine ⟨tok, a, ds, he, ?_, by omega⟩
    rw [hat]; congr 1; omega

/-- The variable-pin-delay flag in terms of the buffers.  In every library
`If_LutLibRead` returns, `fVarPinDelays` is set (and then it is `1`) if and
only if some entry line among the buffers that `fgets` delivers has more than
one delay token, wherever it stands among the others. -/
theorem buffers_fVarPinDelays {α : Type} [Zero α] (M : Nat)
    (atoi : List Char → Int) (atof : List Char → α) (FileName : String)
    (text : List Char) (p : If_Lib_t α)
    (h : If_LutLibRead M atoi atof FileName (some text) = .lib p) :
    (p.fVarPinDelays ≠ 0 ↔
      ∃ toks ∈ entries (fileLines text), 1 < delayCount toks) ∧
    (p.fVarPinDelays = 0 ∨ p.fVarPinDelays = 1) := by
  obtain ⟨-, rfl⟩ := (If_LutLibRead_eq_lib_iff M atoi atof FileName text p).mp h
  rw [buildLib_fVar]
  by_cases hex : ∃ toks ∈ entries (fileLines text), 1 < delayCount toks
  · rw [if_pos hex]
    exact ⟨⟨fun _ => hex, fun _ => by decide⟩, Or.inr rfl⟩
  · rw [if_neg hex]
    exact ⟨⟨fun h0 => absurd rfl h0, fun h1 => absurd h1 hex⟩, Or.inl rfl⟩

/-- Buffers without an entry are invisible.  If the buffers that `fgets`
delivers for one input are those of another with one more buffer, at any
position, that has no token or whose first token starts with `#`, then
`If_LutLibRead` gives the same result on both. -/
theorem buffers_skip_blank_and_comment {α : Type} [Zero α] (M : Nat)
    (atoi : List Char → Int) (atof : List Char → α) (FileName : String)
    (text text' : List Char) (pre post : List (List Char)) (l : List Char)
    (hins : fileLines text = pre ++ l :: post)
    (hdel : fileLines text' = pre ++ post)
    (hl : lineTokens l = [] ∨
      ∃ tok toks, lineTokens l = tok :: toks ∧ tok.head? = some '#') :
    If_LutLibRead M atoi atof FileName (some text) =
      If_LutLibRead M atoi atof FileName (some text') := by
  unfold If_LutLibRead
  simp only
  rw [readLoop_eq_readEntries, readLoop_eq_readEntries, hins, hdel,
    entries_skip pre post l (entryTokens_of_skipped l hl)]

set_option maxRecDepth 100000 in
/-- With the ceiling at `32`, an input with the entry lines `1 1 1` to
`32 1 1` reaches the ceiling and gives `NULL`, while `"1 1 1\n"` gives a
library with `LutMax = 1 < 32`. -/
theorem If_LutLibRead_size_ceiling_witness :
    If_LutLibRead 32 atoiDec atofDec "lib.txt"
      (some "1 1 1\n2 1 1\n3 1 1\n4 1 1\n5 1 1\n6 1 1\n7 1 1\n8 1 1\n9 1 1\n10 1 1\n11 1 1\n12 1 1\n13 1 1\n14 1 1\n15 1 1\n16 1 1\n17 1 1\n18 1 1\n19 1 1\n20 1 1\n21 1 1\n22 1 1\n23 1 1\n24 1 1\n25 1 1\n26 1 1\n27 1 1\n28 1 1\n29 1 1\n30 1 1\n31 1 1\n32 1 1\n".toList) = .null ∧
    (∀ p, If_LutLibRead 32 atoiDec atofDec "lib.txt"
      (some "1 1 1\n2 1 1\n3 1 1\n4 1 1\n5 1 1\n6 1 1\n7 1 1\n8 1 1\n9 1 1\n10 1 1\n11 1 1\n12 1 1\n13 1 1\n14 1 1\n15 1 1\n16 1 1\n17 1 1\n18 1 1\n19 1 1\n20 1 1\n21 1 1\n22 1 1\n23 1 1\n24 1 1\n25 1 1\n26 1 1\n27 1 1\n28 1 1\n29 1 1\n30 1 1\n31 1 1\n32 1 1\n".toList) ≠ .lib p) ∧
    (∃ p, If_LutLibRead 32 atoiDec atofDec "lib.txt" (some "1 1 1\n".toList) = .lib p ∧
      p.LutMax < 32 ∧ p.LutMax = 1) :=
  ⟨(If_LutLibRead_size_ceiling 32 atoiDec atofDec "lib.txt"
      "1 1 1\n2 1 1\n3 1 1\n4 1 1\n5 1 1\n6 1 1\n7 1 1\n8 1 1\n9 1 1\n10 1 1\n11 1 1\n12 1 1\n13 1 1\n14 1 1\n15 1 1\n16 1 1\n17 1 1\n18 1 1\n19 1 1\n20 1 1\n21 1 1\n22 1 1\n23 1 1\n24 1 1\n25 1 1\n26 1 1\n27 1 1\n28 1 1\n29 1 1\n30 1 1\n31 1 1\n32 1 1\n".toList
      (by decide)).2.2 (fun j hj => by
        interval_cases j <;> exact ⟨_, _, _, rfl, by decide, by decide⟩),
   (If_LutLibRead_size_ceiling 32 atoiDec atofDec "lib.txt"
      "1 1 1\n2 1 1\n3 1 1\n4 1 1\n5 1 1\n6 1 1\n7 1 1\n8 1 1\n9 1 1\n10 1 1\n11 1 1\n12 1 1\n13 1 1\n14 1 1\n15 1 1\n16 1 1\n17 1 1\n18 1 1\n19 1 1\n20 1 1\n21 1 1\n22 1 1\n23 1 1\n24 1 1\n25 1 1\n26 1 1\n27 1 1\n28 1 1\n29 1 1\n30 1 1\n31 1 1\n32 1 1\n".toList
      (by decide)).1 (by decide),
   ⟨_, rfl, (If_LutLibRead_size_ceiling 32 atoiDec atofDec "lib.txt" "1 1 1\n".toList
      (by decide)).2.1 _ rfl⟩⟩

/-! ## The reader on the lines of the input

The theorems above speak of the buffers that `fgets` delivers.  A line of the
input that has more than 999 characters is delivered in several buffers, and
the reader takes each of them for a line.  The statements below are on the
lines of the input, for inputs in which no line has more than 999 characters
(the newline included). -/

set_option maxRecDepth 50000 in
/-- C1 (what the code does instead): the input of one line `1 0`, 997 spaces
and `5`, without a newline, is well formed: its only entry line has the size
token `1`, the area token `0` and the one delay token `5`.  The line has 1001
characters; `fgets` delivers it in two pieces, the second piece `" 5"` is
taken for an entry line of size `5`, and the reader returns `NULL`. -/
theorem wellformed_long_line_counterexample :
    textLines ("1 0".toList ++ List.replicate 997 ' ' ++ "5".toList) =
      ["1 0".toList ++ List.replicate 997 ' ' ++ "5".toList] ∧
    ("1 0".toList ++ List.replicate 997 ' ' ++ "5".toList).length = 1001 ∧
    entries (textLines ("1 0".toList ++ List.replicate 997 ' ' ++ "5".toList)) =
      [["1".toList, "0".toList, "5".toList]] ∧
    atoiDec "1".toList = 1 ∧
    If_LutLibRead 32 atoiDec atofDec "lib.txt"
      (some ("1 0".toList ++ List.replicate 997 ' ' ++ "5".toList)) = .null := by
  have hT := textLines_of_no_newline
    ("1 0".toList ++ List.replicate 997 ' ' ++ "5".toList) (by decide) (by decide)
  rw [hT]
  exact ⟨rfl, by decide, by decide, by decide, rfl⟩

/-- C1, amended: well-formed input whose lines fit the buffer is read into the
described library.  If no line of the input has more than 999 characters and
the entry lines of the input (the lines that have a token and whose first
token does not start with `#`), numbered `1..n` with `n < IF_MAX_LUTSIZE`,
each have a first token that `atoi` reads as the line's number, an area token
and at most as many delay tokens as the number, then `If_LutLibRead` returns a
library with `LutMax = n`, `pLutAreas[j]` the value of the area token of line
`j` and `pLutDelays[j][m]` the value of its `m`-th delay token. -/
theorem If_LutLibRead_wellformed {α : Type} [Zero α] (M : Nat)
    (atoi : List Char → Int) (atof : List Char → α) (FileName : String)
    (text : List Char)
    (hshort : ∀ l ∈ textLines text, l.length ≤ 999)
    (hn : (entries (textLines text)).length < M)
    (hwf : ∀ j, j < (entries (textLines text)).length →
      ∃ tok a ds, (entries (textLines text))[j]? = some (tok :: a :: ds) ∧
        atoi tok = ((j + 1 : Nat) : Int) ∧ ds.length ≤ j + 1) :
    ∃ p, If_LutLibRead M atoi atof FileName (some text) = .lib p ∧
      p.LutMax = ((entries (textLines text)).length : Int) ∧
      ∀ j tok a ds, (entries (textLines text))[j]? = some (tok :: a :: ds) →
        p.pLutAreas ((j + 1 : Nat) : Int) = atof a ∧
        ∀ (m : Nat) (d : List Char), ds[m]? = some d →
          p.pLutDelays ((j + 1 : Nat) : Int) (m : Int) = atof d := by
  rw [← fileLines_eq_textLines text hshort] at hn hwf ⊢
  exact buffers_wellformed M atoi atof FileName text hn hwf

/-- The input `"1 0 0\n2 1 1 1\n"` is well formed and is read as the library
with `LutMax = 2`, areas `0` and `1`, delays `[0]` and `[1,1]` and the flag
set; an input without entry lines gives `LutMax = 0`. -/
theorem If_LutLibRead_wellformed_witness :
    (∃ p, If_LutLibRead 32 atoiDec atofDec "lib.txt" (some "1 0 0\n2 1 1 1\n".toList) = .lib p ∧
      p.LutMax = 2 ∧ p.pLutAreas 1 = 0 ∧ p.pLutDelays 1 0 = 0 ∧
      p.pLutAreas 2 = 1 ∧ p.pLutDelays 2 0 = 1 ∧ p.pLutDelays 2 1 = 1 ∧
      p.fVarPinDelays = 1) ∧
    (∃ p, If_LutLibRead 32 atoiDec atofDec "lib.txt" (some "# no entry\n \t\n".toList) = .lib p ∧
      p.LutMax = 0) := by
  constructor
  · obtain ⟨p, hp, hmax, htab⟩ :=
      If_LutLibRead_wellformed 32 atoiDec atofDec "lib.txt" "1 0 0\n2 1 1 1\n".toList
        (by decide) (by decide)
        (fun j hj => by
          have hj2 : j < 2 := hj
          match j, hj2 with
          | 0, _ => exact ⟨_, _, _, rfl, by decide, by decide⟩
          | 1, _ => exact ⟨_, _, _, rfl, by decide, by decide⟩)
    have h1 := htab 0 _ _ _ rfl
    have h2 := htab 1 _ _ _ rfl
    have hf : (If_LutLibRead 32 atoiDec atofDec "lib.txt"
        (some "1 0 0\n2 1 1 1\n".toList)).lib?.map (fun q => q.fVarPinDelays) = some 1 := by
      decide
    rw [hp] at hf
    refine ⟨p, hp, hmax, h1.1, h1.2 0 _ rfl, h2.1, h2.2 0 _ rfl, h2.2 1 _ rfl, ?_⟩
    simpa [Result.lib?] using hf
  · have h0 : (entries (textLines "# no entry\n \t\n".toList)).length = 0 := by decide
    obtain ⟨p, hp, hmax, -⟩ :=
      If_LutLibRead_wellformed 32 atoiDec atofDec "lib.txt" "# no entry\n \t\n".toList
        (by decide) (by decide) (fun j hj => absurd hj (by rw [h0]; omega))
    exact ⟨p, hp, hmax⟩

set_option maxRecDepth 50000 in
/-- C3 (what the code does instead): the input of one line `1 0 0`, 994
spaces and `2 0 0` is one entry line for size `1` with four delay tokens;
`fgets` delivers it in two pieces, the second piece is taken for an entry line
of size `2`, and the reader returns a library with `LutMax = 2`. -/
theorem too_many_delays_long_line_counterexample :
    entries (textLines ("1 0 0".toList ++ List.replicate 994 ' ' ++ "2 0 0".toList)) =
      [["1".toList, "0".toList, "0".toList, "2".toList, "0".toList, "0".toList]] ∧
    delayCount ["1".toList, "0".toList, "0".toList, "2".toList, "0".toList, "0".toList] = 4 ∧
    ∃ p, If_LutLibRead 32 atoiDec atofDec "lib.txt"
      (some ("1 0 0".toList ++ List.replicate 994 ' ' ++ "2 0 0".toList)) = .lib p ∧
      p.LutMax = 2 := by
  have hT := textLines_of_no_newline
    ("1 0 0".toList ++ List.replicate 994 ' ' ++ "2 0 0".toList) (by decide) (by decide)
  rw [hT]
  exact ⟨by decide, by decide, ⟨_, rfl, by decide⟩⟩

/-- C3, amended: too many delay values are fatal when the lines fit the
buffer.  Let no line of the input have more than 999 characters.  If some
entry line carries more delay tokens than its size (its position among the
entry lines, or the number `atoi` reads its first token as), `If_LutLibRead`
returns no library; so in every library it returns, each entry line has its
position as size token and at most that many delay tokens. -/
theorem If_LutLibRead_too_many_delays {α : Type} [Zero α] (M : Nat)
    (atoi : List Char → Int) (atof : List Char → α) (FileName : String)
    (text : List Char)
    (hshort : ∀ l ∈ textLines text, l.length ≤ 999) :
    (∀ j toks, (entries (textLines text))[j]? = some toks →
      (j + 1 < delayCount toks ∨
        ∃ tok rest, toks = tok :: rest ∧ atoi tok < (delayCount toks : Int)) →
      ∀ p, If_LutLibRead M atoi atof FileName (some text) ≠ .lib p) ∧
    (∀ p, If_LutLibRead M atoi atof FileName (some text) = .lib p →
      ∀ j toks, (entries (textLines text))[j]? = some toks →
        delayCount toks ≤ j + 1 ∧ toks.head?.map atoi = some ((j + 1 : Nat) : Int)) := by
  rw [← fileLines_eq_textLines text hshort]
  exact buffers_too_many_delays M atoi atof FileName text

/-- The input `"1 0 0 0\n"` has two delay values for size `1`: no library,
and the result is `NULL`. -/
theorem If_LutLibRead_too_many_delays_witness :
    (∀ p, If_LutLibRead 32 atoiDec atofDec "lib.txt" (some "1 0 0 0\n".toList) ≠ .lib p) ∧
    If_LutLibRead 32 atoiDec atofDec "lib.txt" (some "1 0 0 0\n".toList) = .null :=
  ⟨(If_LutLibRead_too_many_delays 32 atoiDec atofDec "lib.txt" "1 0 0 0\n".toList
      (by decide)).1 0
      ["1".toList, "0".toList, "0".toList, "0".toList] rfl (Or.inl (by decide)),
   rfl⟩

set_option maxRecDepth 50000 in
/-- C5 (what the code does instead): in the input with the lines `1 0 0` and
`#` followed by 998 spaces and `2 0 0 0`, the only entry line has one delay
token and the second line is a comment; `fgets` delivers the comment line in
two pieces, the second piece `2 0 0 0` is taken for an entry line with two
delay tokens, and the flag of the library returned is `1`. -/
theorem fVarPinDelays_long_line_counterexample :
    entries (textLines ("1 0 0".toList ++ '\n' :: (('#' :: List.replicate 998 ' ' ++
      "2 0 0 0".toList) ++ '\n' :: []))) = [["1".toList, "0".toList, "0".toList]] ∧
    delayCount ["1".toList, "0".toList, "0".toList] = 1 ∧
    ∃ p, If_LutLibRead 32 atoiDec atofDec "lib.txt"
      (some ("1 0 0".toList ++ '\n' :: (('#' :: List.replicate 998 ' ' ++
        "2 0 0 0".toList) ++ '\n' :: []))) = .lib p ∧
      p.fVarPinDelays = 1 := by
  have hT : textLines ("1 0 0".toList ++ '\n' :: (('#' :: List.replicate 998 ' ' ++
      "2 0 0 0".toList) ++ '\n' :: [])) =
      ["1 0 0\n".toList, ('#' :: List.replicate 998 ' ' ++ "2 0 0 0".toList) ++ ['\n']] := by
    rw [textLines_line_append _ _ (by decide), textLines_line_append _ _ (by decide)]
    rfl
  rw [hT]
  exact ⟨by decide, by decide, ⟨_, rfl, by decide⟩⟩

/-- C5, amended: the variable-pin-delay flag is library-wide and exact when
the lines fit the buffer.  If no line of the input has more than 999
characters, then in every library `If_LutLibRead` returns, `fVarPinDelays` is
set (and then it is `1`) if and only if some entry line of the input has more
than one delay token, wherever that line stands among the others. -/
theorem If_LutLibRead_fVarPinDelays {α : Type} [Zero α] (M : Nat)
    (atoi : List Char → Int) (atof : List Char → α) (FileName : String)
    (text : List Char) (p : If_Lib_t α)
    (hshort : ∀ l ∈ textLines text, l.length ≤ 999)
    (h : If_LutLibRead M atoi atof FileName (some text) = .lib p) :
    (p.fVarPinDelays ≠ 0 ↔
      ∃ toks ∈ entries (textLines text), 1 < delayCount toks) ∧
    (p.fVarPinDelays = 0 ∨ p.fVarPinDelays = 1) := by
  rw [← fileLines_eq_textLines text hshort]
  exact buffers_fVarPinDelays M atoi atof FileName text p h

/-- In `"1 1 1\n2 1 1 1\n3 1 1\n"` the second line has two delay values, the
lines before and after it one: the flag of the library is set. -/
theorem If_LutLibRead_fVarPinDelays_witness :
    ∃ p, If_LutLibRead 32 atoiDec atofDec "lib.txt"
        (some "1 1 1\n2 1 1 1\n3 1 1\n".toList) = .lib p ∧
      p.fVarPinDelays ≠ 0 ∧ (p.fVarPinDelays = 0 ∨ p.fVarPinDelays = 1) :=
  ⟨_, rfl,
    (If_LutLibRead_fVarPinDelays 32 atoiDec atofDec "lib.txt"
      "1 1 1\n2 1 1 1\n3 1 1\n".toList _ (by decide) rfl).1.mpr
      ⟨["2".toList, "1".toList, "1".toList, "1".toList], by decide, by decide⟩,
    (If_LutLibRead_fVarPinDelays 32 atoiDec atofDec "lib.txt"
      "1 1 1\n2 1 1 1\n3 1 1\n".toList _ (by decide) rfl).2⟩

set_option maxRecDepth 50000 in
/-- C6 (what the code does instead): the input `1 0 0` is read into a
library; with the comment line `#` followed by 1000 letters `x` inserted before
it, `fgets` delivers the comment line in two pieces, the second piece `xx` is
taken for an entry line, and the reader returns `NULL`. -/
theorem skip_comment_long_line_counterexample :
    textLines (('#' :: List.replicate 1000 'x') ++ '\n' :: "1 0 0\n".toList) =
      [('#' :: List.replicate 1000 'x') ++ ['\n'], "1 0 0\n".toList] ∧
    textLines "1 0 0\n".toList = ["1 0 0\n".toList] ∧
    lineTokens (('#' :: List.replicate 1000 'x') ++ ['\n']) =
      ['#' :: List.replicate 1000 'x'] ∧
    (∃ p, If_LutLibRead 32 atoiDec atofDec "lib.txt" (some "1 0 0\n".toList) = .lib p) ∧
    If_LutLibRead 32 atoiDec atofDec "lib.txt"
      (some (('#' :: List.replicate 1000 'x') ++ '\n' :: "1 0 0\n".toList)) = .null := by
  refine ⟨?_, by decide, by decide, ⟨_, rfl⟩, rfl⟩
  rw [textLines_line_append _ _ (by decide)]
  rfl

/-- C6, amended: blank lines and comment lines that fit the buffer are
invisible.  If the lines of one input, none of more than 999 characters, are
those of another with one more line, at any position, that has no token or
whose first token starts with `#`, then `If_LutLibRead` gives the same result
on both: the same outcome and, when a library is returned, the same library. -/
theorem If_LutLibRead_skips_blank_and_comment {α : Type} [Zero α] (M : Nat)
    (atoi : List Char → Int) (atof : List Char → α) (FileName : String)
    (text text' : List Char) (pre post : List (List Char)) (l : List Char)
    (hshort : ∀ x ∈ textLines text, x.length ≤ 999)
    (hins : textLines text = pre ++ l :: post)
    (hdel : textLines text' = pre ++ post)
    (hl : lineTokens l = [] ∨
      ∃ tok toks, lineTokens l = tok :: toks ∧ tok.head? = some '#') :
    If_LutLibRead M atoi atof FileName (some text) =
      If_LutLibRead M atoi atof FileName (some text') := by
  have hshort' : ∀ x ∈ textLines text', x.length ≤ 999 := by
    intro x hx
    rw [hdel] at hx
    apply hshort
    rw [hins]
    rcases List.mem_append.mp hx with h | h
    · exact List.mem_append_left _ h
    · exact List.mem_append_right _ (List.mem_cons_of_mem _ h)
  exact buffers_skip_blank_and_comment M atoi atof FileName text text' pre post l
    (by rw [fileLines_eq_textLines text hshort]; exact hins)
    (by rw [fileLines_eq_textLines text' hshort']; exact hdel) hl

/-- A comment line and a blank line between two entries change nothing. -/
theorem If_LutLibRead_skips_blank_and_comment_witness :
    If_LutLibRead 32 atoiDec atofDec "lib.txt" (some "1 0 0\n# k area delay\n2 1 1 1\n".toList) =
      If_LutLibRead 32 atoiDec atofDec "lib.txt" (some "1 0 0\n2 1 1 1\n".toList) ∧
    If_LutLibRead 32 atoiDec atofDec "lib.txt" (some "1 0 0\n \t \n2 1 1 1\n".toList) =
      If_LutLibRead 32 atoiDec atofDec "lib.txt" (some "1 0 0\n2 1 1 1\n".toList) :=
  ⟨If_LutLibRead_skips_blank_and_comment 32 atoiDec atofDec "lib.txt"
      "1 0 0\n# k area delay\n2 1 1 1\n".toList "1 0 0\n2 1 1 1\n".toList
      ["1 0 0\n".toList] ["2 1 1 1\n".toList] "# k area delay\n".toList (by decide)
      (by decide) (by decide) (Or.inr ⟨_, _, rfl, rfl⟩),
   If_LutLibRead_skips_blank_and_comment 32 atoiDec atofDec "lib.txt"
      "1 0 0\n \t \n2 1 1 1\n".toList "1 0 0\n2 1 1 1\n".toList
      ["1 0 0\n".toList] ["2 1 1 1\n".toList] " \t \n".toList (by decide)
      (by decide) (by decide) (Or.inl rfl)⟩

/-! ## The built-in libraries and the pin-delay queries -/

/-- C7 (what the code does instead): in the built-in library for size `3` the
LUT of size `1` has area `1` and delay `1`, not `0`. -/
theorem If_SetSimpleLutLib_size_one_counterexample :
    ∃ p : If_Lib_t ℚ, If_SetSimpleLutLib 3 = .lib p ∧
      p.pLutAreas 1 = 1 ∧ p.pLutDelays 1 0 = 1 ∧
      ¬ (p.pLutAreas 1 = 0) ∧ ¬ (p.pLutDelays 1 0 = 0) :=
  ⟨_, rfl, by decide, by decide, by decide, by decide⟩

/-- C7, amended: for `3 ≤ n ≤ 10`, `If_SetSimpleLutLib( n )` returns a library
named `"lutlib"` with `LutMax = n`, `fVarPinDelays = 0`, and area `1` and pin-0
delay `1` for every size `1..n`, size `1` included; the zero of the
initialisers is the entry of index `0`. -/
theorem If_SetSimpleLutLib_tables {α : Type} [Zero α] [One α] (n : Int)
    (h3 : 3 ≤ n) (h10 : n ≤ 10) :
    ∃ p : If_Lib_t α, If_SetSimpleLutLib n = .lib p ∧
      p.pName = some "lutlib" ∧ p.LutMax = n ∧ p.fVarPinDelays = 0 ∧
      (∀ k : Int, 1 ≤ k → k ≤ n → p.pLutAreas k = 1 ∧ p.pLutDelays k 0 = 1) ∧
      p.pLutAreas 0 = 0 ∧ p.pLutDelays 0 0 = 0 := by
  interval_cases n
  all_goals
    refine ⟨_, rfl, rfl, rfl, rfl, ?_, rfl, rfl⟩
    intro k hk1 hk2
    interval_cases k <;> exact ⟨rfl, rfl⟩

/-- The built-in library for size `6`, with rational values. -/
theorem If_SetSimpleLutLib_tables_witness :
    ∃ p : If_Lib_t ℚ, If_SetSimpleLutLib 6 = .lib p ∧
      p.pName = some "lutlib" ∧ p.LutMax = 6 ∧ p.fVarPinDelays = 0 ∧
      (∀ k : Int, 1 ≤ k → k ≤ 6 → p.pLutAreas k = 1 ∧ p.pLutDelays k 0 = 1) ∧
      p.pLutAreas 0 = 0 ∧ p.pLutDelays 0 0 = 0 :=
  If_SetSimpleLutLib_tables 6 (by decide) (by decide)

/-- C8: the preset at its own size.  For `3 ≤ n ≤ 10` the `switch` selects a
preset, `If_SetSimpleLutLib( n )` returns its duplicate, and the duplicate has
`LutMax = n`, `fVarPinDelays = 0`, `pLutDelays[n][0] = 1` and
`pLutAreas[n] = 1`; every call with this `n` returns that same value. -/
theorem If_SetSimpleLutLib_own_size {α : Type} [Zero α] [One α] (n : Int)
    (h3 : 3 ≤ n) (h10 : n ≤ 10) :
    ∃ q : If_Lib_t α, simpleLutLibSwitch n = some q ∧
      If_SetSimpleLutLib n = .lib (If_LutLibDup q) ∧
      (If_LutLibDup q).LutMax = n ∧ (If_LutLibDup q).fVarPinDelays = 0 ∧
      (If_LutLibDup q).pLutDelays n 0 = 1 ∧ (If_LutLibDup q).pLutAreas n = 1 ∧
      ∀ r r' : Result α, If_SetSimpleLutLib n = r → If_SetSimpleLutLib n = r' → r = r' := by
  interval_cases n
  all_goals
    exact ⟨_, rfl, rfl, rfl, rfl, rfl, rfl, fun r r' h h' => h.symm.trans h'⟩

/-- The preset for size `6`: `LutMax = 6`, uniform delays, delay `1` at pin
`0` and area `1` for size `6`. -/
theorem If_SetSimpleLutLib_own_size_witness :
    ∃ q : If_Lib_t ℚ, simpleLutLibSwitch 6 = some q ∧
      If_SetSimpleLutLib 6 = .lib (If_LutLibDup q) ∧
      (If_LutLibDup q).LutMax = 6 ∧ (If_LutLibDup q).fVarPinDelays = 0 ∧
      (If_LutLibDup q).pLutDelays 6 0 = 1 ∧ (If_LutLibDup q).pLutAreas 6 = 1 ∧
      ∀ r r' : Result ℚ, If_SetSimpleLutLib 6 = r → If_SetSimpleLutLib 6 = r' → r = r' :=
  If_SetSimpleLutLib_own_size 6 (by decide) (by decide)

/-- C9: the two pin-delay queries.  `If_LutLibFastestPinDelay` is `1.0` for
the null pointer and `pLutDelays[LutMax][0]` otherwise;
`If_LutLibSlowestPinDelay` is `1.0` for the null pointer,
`pLutDelays[LutMax][LutMax-1]` for a library with `fVarPinDelays` set and
`pLutDelays[LutMax][0]` for a library with `fVarPinDelays` clear. -/
theorem If_LutLib_pin_delay_queries {α : Type} [One α] :
    If_LutLibFastestPinDelay (none : Option (If_Lib_t α)) = 1 ∧
    (∀ p : If_Lib_t α, If_LutLibFastestPinDelay (some p) = p.pLutDelays p.LutMax 0) ∧
    If_LutLibSlowestPinDelay (none : Option (If_Lib_t α)) = 1 ∧
    (∀ p : If_Lib_t α, p.fVarPinDelays ≠ 0 →
      If_LutLibSlowestPinDelay (some p) = p.pLutDelays p.LutMax (p.LutMax - 1)) ∧
    (∀ p : If_Lib_t α, p.fVarPinDelays = 0 →
      If_LutLibSlowestPinDelay (some p) = p.pLutDelays p.LutMax 0) := by
  refine ⟨rfl, fun p => rfl, rfl, fun p hp => ?_, fun p hp => ?_⟩
  · simp only [If_LutLibSlowestPinDelay]
    rw [if_pos hp]
  · simp only [If_LutLibSlowestPinDelay]
    rw [if_neg (by simp [hp])]

/-- On the library read from `"1 1 1\n2 1 1 2\n"` (variable pin delays) the
fastest pin delay is `1` and the slowest `2`; on the preset for size `6` both
are `1`. -/
theorem If_LutLib_pin_delay_queries_witness :
    (∃ p, If_LutLibRead 32 atoiDec atofDec "lib.txt" (some "1 1 1\n2 1 1 2\n".toList) = .lib p ∧
      If_LutLibFastestPinDelay (some p) = 1 ∧ If_LutLibSlowestPinDelay (some p) = 2) ∧
    If_LutLibSlowestPinDelay (some (s_LutLib6 : If_Lib_t ℚ)) = 1 ∧
    If_LutLibFastestPinDelay (none : Option (If_Lib_t ℚ)) = 1 ∧
    If_LutLibSlowestPinDelay (none : Option (If_Lib_t ℚ)) = 1 :=
  ⟨⟨_, rfl,
      (If_LutLib_pin_delay_queries.2.1 _).trans (by decide),
      (If_LutLib_pin_delay_queries.2.2.2.1 _ (by decide)).trans (by decide)⟩,
    (If_LutLib_pin_delay_queries.2.2.2.2 s_LutLib6 rfl).trans (by decide),
    If_LutLib_pin_delay_queries.1,
    If_LutLib_pin_delay_queries.2.2.1⟩

/-- C10: in uniform mode the two queries coincide.  For every library
pointer, the null pointer included, whose library (if any) has
`fVarPinDelays` clear, `If_LutLibSlowestPinDelay` and
`If_LutLibFastestPinDelay` return the same value. -/
theorem If_LutLib_pin_delays_coincide_uniform {α : Type} [One α]
    (p : Option (If_Lib_t α)) (h : ∀ q, p = some q → q.fVarPinDelays = 0) :
    If_LutLibSlowestPinDelay p = If_LutLibFastestPinDelay p := by
  cases p with
  | none => rfl
  | some q =>
    simp only [If_LutLibSlowestPinDelay, If_LutLibFastestPinDelay]
    rw [if_neg (by simp [h q rfl])]

/-- The two queries agree on the preset for size `6` and on the null
pointer. -/
theorem If_LutLib_pin_delays_coincide_uniform_witness :
    If_LutLibSlowestPinDelay (some (s_LutLib6 : If_Lib_t ℚ)) =
      If_LutLibFastestPinDelay (some (s_LutLib6 : If_Lib_t ℚ)) ∧
    If_LutLibSlowestPinDelay (none : Option (If_Lib_t ℚ)) =
      If_LutLibFastestPinDelay (none : Option (If_Lib_t ℚ)) :=
  ⟨If_LutLib_pin_delays_coincide_uniform (some s_LutLib6)
      (fun q hq => by
        simp only [Option.some.injEq] at hq
        subst hq; rfl),
   If_LutLib_pin_delays_coincide_uniform none (fun q hq => absurd hq (by simp))⟩

/-! ## The discreteness check and duplication -/

theorem delaysAreDiscreteLoop_eq_one_iff {α : Type} [DecidableEq α] (truncF : α → α)
    (p : If_Lib_t α) (n : Nat) (i : Int) :
    delaysAreDiscreteLoop truncF p n i = 1 ↔
      ∀ j : Nat, j < n → truncF (p.pLutDelays (i + j) 0) = p.pLutDelays (i + j) 0 := by
  induction n generalizing i with
  | zero => simp [delaysAreDiscreteLoop]
  | succ n ih =>
    rw [delaysAreDiscreteLoop]
    by_cases h : truncF (p.pLutDelays i 0) ≠ p.pLutDelays i 0
    · rw [if_pos h]
      constructor
      · intro h0; exact absurd h0 (by decide)
      · intro hall
        have := hall 0 (by omega)
        simp only [Nat.cast_zero, add_zero] at this
        exact absurd this h
    · rw [if_neg h, ih]
      have h0 : truncF (p.pLutDelays i 0) = p.pLutDelays i 0 := by
        by_contra hne; exact h hne
      constructor
      · intro hall j hj
        cases j with
        | zero => simpa using h0
        | succ j =>
          have := hall j (by omega)
          rwa [show i + 1 + (j : Int) = i + ((j + 1 : Nat) : Int) by push_cast; ring] at this
      · intro hall j hj
        have := hall (j + 1) (by omega)
        rwa [show i + ((j + 1 : Nat) : Int) = i + 1 + (j : Int) by push_cast; ring] at this

theorem delaysAreDiscreteLoop_zero_or_one {α : Type} [DecidableEq α] (truncF : α → α)
    (p : If_Lib_t α) (n : Nat) (i : Int) :
    delaysAreDiscreteLoop truncF p n i = 1 ∨ delaysAreDiscreteLoop truncF p n i = 0 := by
  induction n generalizing i with
  | zero => exact Or.inl rfl
  | succ n ih =>
    rw [delaysAreDiscreteLoop]
    split
    · exact Or.inr rfl
    · exact ih (i + 1)

theorem If_LutLibDelaysAreDiscrete_eq_one_iff {α : Type} [DecidableEq α]
    (truncF : α → α) (p : If_Lib_t α) :
    If_LutLibDelaysAreDiscrete truncF p = 1 ↔
      ∀ i : Int, 1 ≤ i → i ≤ p.LutMax →
        truncF (p.pLutDelays i 0) = p.pLutDelays i 0 := by
  unfold If_LutLibDelaysAreDiscrete
  rw [delaysAreDiscreteLoop_eq_one_iff]
  constructor
  · intro h i h1 h2
    have := h (i - 1).toNat (by omega)
    rwa [show (1 : Int) + ((i - 1).toNat : Int) = i by omega] at this
  · intro h j hj
    exact h (1 + j) (by omega) (by omega)

theorem If_LutLibDup_eq {α : Type} (p : If_Lib_t α) : If_LutLibDup p = p := by
  cases p with
  | mk pName LutMax fVarPinDelays pLutAreas pLutDelays =>
    cases pName <;> rfl

theorem truncQ_intCast (z : Int) : truncQ (z : ℚ) = z := by
  simp [truncQ]

/-- A rational equals its truncation toward zero exactly when it is a whole
number. -/
theorem truncQ_eq_self_iff (q : ℚ) : truncQ q = q ↔ ∃ z : Int, q = z := by
  constructor
  · intro h
    exact ⟨_, h.symm⟩
  · rintro ⟨z, rfl⟩
    exact truncQ_intCast z

/-- The conversion to `int` and back gives the value itself exactly for the
whole numbers in the range of the 32-bit `int`. -/
theorem castIntQ_eq_self_iff (q : ℚ) :
    castIntQ q = q ↔ ∃ z : Int, -(2 ^ 31) ≤ z ∧ z < 2 ^ 31 ∧ q = z := by
  unfold castIntQ
  constructor
  · intro h
    split at h
    · rename_i hr
      obtain ⟨z, rfl⟩ := (truncQ_eq_self_iff q).mp h
      refine ⟨z, ?_, ?_, rfl⟩
      · have h1 : ((-(2 ^ 31) - 1 : Int) : ℚ) < (z : ℚ) := by
          have := hr.1
          norm_num at this ⊢
          linarith
        have := Int.cast_lt.mp h1
        omega
      · have h1 : (z : ℚ) < ((2 ^ 31 : Int) : ℚ) := by push_cast; exact hr.2
        exact Int.cast_lt.mp h1
    · refine ⟨-(2 ^ 31), by norm_num, by norm_num, ?_⟩
      rw [← h]; push_cast; rfl
  · rintro ⟨z, h1, h2, rfl⟩
    rw [if_pos, truncQ_intCast]
    constructor
    · have : ((-(2 ^ 31) - 1 : Int) : ℚ) < (z : ℚ) := Int.cast_lt.mpr (by omega)
      norm_num at this ⊢
      linarith
    · have : (z : ℚ) < ((2 ^ 31 : Int) : ℚ) := Int.cast_lt.mpr h2
      push_cast at this; exact this

/-- The discreteness check for any conversion.  With `truncF x` the value
of `(float)((int)x)`, `If_LutLibDelaysAreDiscrete` returns `1` if and only if
the conversion gives back the pin-0 delay of every size `1..LutMax`, and `0`
otherwise; two libraries with the same `LutMax` and the same pin-0 delays for
the sizes `1..LutMax` get the same answer, whatever their other delays and
their `fVarPinDelays` are. -/
theorem delaysAreDiscrete_of_conversion {α : Type} [DecidableEq α]
    (truncF : α → α) (p : If_Lib_t α) :
    (If_LutLibDelaysAreDiscrete truncF p = 1 ↔
      ∀ i : Int, 1 ≤ i → i ≤ p.LutMax →
        truncF (p.pLutDelays i 0) = p.pLutDelays i 0) ∧
    (If_LutLibDelaysAreDiscrete truncF p = 1 ∨ If_LutLibDelaysAreDiscrete truncF p = 0) ∧
    (∀ q : If_Lib_t α, q.LutMax = p.LutMax →
      (∀ i : Int, 1 ≤ i → i ≤ p.LutMax → q.pLutDelays i 0 = p.pLutDelays i 0) →
      If_LutLibDelaysAreDiscrete truncF q = If_LutLibDelaysAreDiscrete truncF p) := by
  refine ⟨If_LutLibDelaysAreDiscrete_eq_one_iff truncF p,
    delaysAreDiscreteLoop_zero_or_one truncF p _ _, fun q hmax hd => ?_⟩
  have hiff : If_LutLibDelaysAreDiscrete truncF q = 1 ↔
      If_LutLibDelaysAreDiscrete truncF p = 1 := by
    rw [If_LutLibDelaysAreDiscrete_eq_one_iff, If_LutLibDelaysAreDiscrete_eq_one_iff, hmax]
    constructor
    · intro h i h1 h2
      have := h i h1 h2
      rwa [hd i h1 h2] at this
    · intro h i h1 h2
      rw [hd i h1 h2]
      exact h i h1 h2
  rcases delaysAreDiscreteLoop_zero_or_one truncF p p.LutMax.toNat 1 with hp | hp <;>
    rcases delaysAreDiscreteLoop_zero_or_one truncF q q.LutMax.toNat 1 with hq | hq
  · exact hq.trans hp.symm
  · have := hiff.mpr hp
    rw [If_LutLibDelaysAreDiscrete, hq] at this
    exact absurd this (by decide)
  · have := hiff.mp hq
    rw [If_LutLibDelaysAreDiscrete, hp] at this
    exact absurd this (by decide)
  · exact hq.trans hp.symm

/-- C11 (what the code does instead): the library read from
`"1 1 3000000000\n"` has the whole number `3000000000` as the pin-0 delay of
size `1`, equal to its truncation toward zero; the number does not fit the
32-bit `int`, the conversion `(float)((int)Delay)` gives another value, and
the check returns `0`. -/
theorem delaysAreDiscrete_beyond_int_counterexample :
    ∃ p, If_LutLibRead 32 atoiDec atofDec "lib.txt"
        (some "1 1 3000000000\n".toList) = .lib p ∧
      p.LutMax = 1 ∧ p.pLutDelays 1 0 = ((3000000000 : Int) : ℚ) ∧
      truncQ (p.pLutDelays 1 0) = p.pLutDelays 1 0 ∧
      If_LutLibDelaysAreDiscrete castIntQ p = 0 := by
  have hd : (buildLib atofDec (entries (fileLines "1 1 3000000000\n".toList)) 1
      (newLib "lib.txt")).pLutDelays 1 0 = ((3000000000 : Int) : ℚ) := by decide
  refine ⟨buildLib atofDec (entries (fileLines "1 1 3000000000\n".toList)) 1
    (newLib "lib.txt"), rfl, by decide, hd, ?_, ?_⟩
  · rw [hd]
    exact truncQ_intCast _
  · rcases delaysAreDiscreteLoop_zero_or_one castIntQ
      (buildLib atofDec (entries (fileLines "1 1 3000000000\n".toList)) 1 (newLib "lib.txt"))
      (buildLib atofDec (entries (fileLines "1 1 3000000000\n".toList)) 1
        (newLib "lib.txt")).LutMax.toNat 1 with h | h
    · have h1 := (If_LutLibDelaysAreDiscrete_eq_one_iff castIntQ _).mp h 1 (by decide)
        (by decide)
      rw [hd] at h1
      obtain ⟨z, -, hz2, hz⟩ := (castIntQ_eq_self_iff _).mp h1
      have hz3 : (3000000000 : Int) = z := Int.cast_injective hz
      omega
    · exact h

/-- C11, amended: the discreteness check on rational delays, with the
conversion `(float)((int)x)` of a 32-bit `int`.  `If_LutLibDelaysAreDiscrete`
returns `1` if and only if the pin-0 delay of every size `1..LutMax` is a
whole number from `-2^31` to `2^31-1`, and `0` otherwise; two libraries with
the same `LutMax` and the same pin-0 delays for the sizes `1..LutMax` get the
same answer, whatever their other delays and their `fVarPinDelays` are. -/
theorem If_LutLibDelaysAreDiscrete_whole_in_int (p : If_Lib_t ℚ) :
    (If_LutLibDelaysAreDiscrete castIntQ p = 1 ↔
      ∀ i : Int, 1 ≤ i → i ≤ p.LutMax →
        ∃ z : Int, -(2 ^ 31) ≤ z ∧ z < 2 ^ 31 ∧ p.pLutDelays i 0 = (z : ℚ)) ∧
    (If_LutLibDelaysAreDiscrete castIntQ p = 1 ∨ If_LutLibDelaysAreDiscrete castIntQ p = 0) ∧
    (∀ q : If_Lib_t ℚ, q.LutMax = p.LutMax →
      (∀ i : Int, 1 ≤ i → i ≤ p.LutMax → q.pLutDelays i 0 = p.pLutDelays i 0) →
      If_LutLibDelaysAreDiscrete castIntQ q = If_LutLibDelaysAreDiscrete castIntQ p) := by
  obtain ⟨h1, h2, h3⟩ := delaysAreDiscrete_of_conversion castIntQ p
  refine ⟨?_, h2, h3⟩
  rw [h1]
  constructor
  · intro h i hi1 hi2
    exact (castIntQ_eq_self_iff _).mp (h i hi1 hi2)
  · intro h i hi1 hi2
    exact (castIntQ_eq_self_iff _).mpr (h i hi1 hi2)

/-- On the preset for size `6`, whose pin-0 delays are all `1`, the check
returns `1`; on the library read from `"1 1 1\n2 1 1.4\n"` it returns `0`;
and a fractional delay at pin `1` is not looked at. -/
theorem If_LutLibDelaysAreDiscrete_whole_in_int_witness :
    If_LutLibDelaysAreDiscrete castIntQ (s_LutLib6 : If_Lib_t ℚ) = 1 ∧
    (∃ p, If_LutLibRead 32 atoiDec atofDec "lib.txt" (some "1 1 1\n2 1 1.4\n".toList) = .lib p ∧
      If_LutLibDelaysAreDiscrete castIntQ p = 0) ∧
    (∃ p, If_LutLibRead 32 atoiDec atofDec "lib.txt" (some "1 1 1\n2 1 1 1.4\n".toList) = .lib p ∧
      If_LutLibDelaysAreDiscrete castIntQ p = 1) := by
  refine ⟨(If_LutLibDelaysAreDiscrete_whole_in_int s_LutLib6).1.mpr (fun i h1 h2 => ?_),
    ⟨_, rfl, ?_⟩, ⟨_, rfl, ?_⟩⟩
  · have h6 : i ≤ 6 := h2
    interval_cases i <;> exact ⟨1, by decide, by decide, by with_unfolding_all decide⟩
  · obtain ⟨h1, h2, -⟩ := If_LutLibDelaysAreDiscrete_whole_in_int
      (buildLib atofDec (entries (fileLines "1 1 1\n2 1 1.4\n".toList)) 1 (newLib "lib.txt"))
    rcases h2 with h | h
    · obtain ⟨z, -, -, hz⟩ := h1.mp h 2 (by decide) (by decide)
      have hden := congrArg Rat.den hz
      rw [Rat.den_intCast] at hden
      exact absurd hden (by with_unfolding_all decide)
    · exact h
  · refine (If_LutLibDelaysAreDiscrete_whole_in_int _).1.mpr (fun i h1 h2 => ?_)
    have h6 : i ≤ 2 := h2
    interval_cases i <;> exact ⟨1, by decide, by decide, by with_unfolding_all decide⟩

/-- C12: duplication preserves the value.  `If_LutLibDup( p )` equals `p` in
the name text, `LutMax`, `fVarPinDelays`, every area and every delay, and the
pin-delay queries and the discreteness check return the same on the copy as
on the original. -/
theorem If_LutLibDup_preserves {α : Type} [One α] [DecidableEq α] (p : If_Lib_t α) :
    If_LutLibDup p = p ∧
    (If_LutLibDup p).pName = p.pName ∧
    (If_LutLibDup p).LutMax = p.LutMax ∧
    (If_LutLibDup p).fVarPinDelays = p.fVarPinDelays ∧
    (∀ i, (If_LutLibDup p).pLutAreas i = p.pLutAreas i) ∧
    (∀ i k, (If_LutLibDup p).pLutDelays i k = p.pLutDelays i k) ∧
    If_LutLibFastestPinDelay (some (If_LutLibDup p)) = If_LutLibFastestPinDelay (some p) ∧
    If_LutLibSlowestPinDelay (some (If_LutLibDup p)) = If_LutLibSlowestPinDelay (some p) ∧
    (∀ truncF : α → α, If_LutLibDelaysAreDiscrete truncF (If_LutLibDup p) =
      If_LutLibDelaysAreDiscrete truncF p) := by
  rw [If_LutLibDup_eq]
  exact ⟨rfl, rfl, rfl, rfl, fun _ => rfl, fun _ _ => rfl, rfl, rfl, fun _ => rfl⟩

/-! ## The warnings of the check -/

theorem nodup_flatMap_range {β : Type} (N : Nat) (f : Nat → List β) (key : β → Int)
    (c : Int) (hkey : ∀ n w, w ∈ f n → key w = (n : Int) + c)
    (hnd : ∀ n, (f n).Nodup) : ((List.range N).flatMap f).Nodup := by
  rw [List.nodup_flatMap]
  refine ⟨fun n _ => hnd n, ?_⟩
  refine (List.pairwise_lt_range N).imp ?_
  intro a b hab w ha hb
  have h1 := hkey a w ha
  have h2 := hkey b w hb
  omega

theorem mem_checkPin {α : Type} [LinearOrder α] [Zero α] (p : If_Lib_t α) (i k : Int)
    (w : Warning α) :
    w ∈ checkPin p i k ↔
      (w = .pinDelay k i (p.pLutDelays i k) ∧ p.pLutDelays i k ≤ 0) ∨
      (w = .pinOrder (k - 1) i (p.pLutDelays i (k - 1)) k i (p.pLutDelays i k) ∧
        k ≠ 0 ∧ p.pLutDelays i (k - 1) > p.pLutDelays i k) := by
  unfold checkPin
  rw [List.mem_append]
  by_cases h1 : p.pLutDelays i k ≤ 0 <;>
    by_cases h2 : k ≠ 0 ∧ p.pLutDelays i (k - 1) > p.pLutDelays i k
  · rw [if_pos h1, if_pos h2]
    simp only [List.mem_singleton]
    exact ⟨fun h => h.imp (fun h => ⟨h, h1⟩) (fun h => ⟨h, h2⟩),
      fun h => h.imp (fun h => h.1) (fun h => h.1)⟩
  · rw [if_pos h1, if_neg h2]
    simp only [List.mem_singleton, List.not_mem_nil, or_false]
    exact ⟨fun h => Or.inl ⟨h, h1⟩, fun h => h.elim (fun h => h.1) (fun h => absurd h.2 h2)⟩
  · rw [if_neg h1, if_pos h2]
    simp only [List.mem_singleton, List.not_mem_nil, false_or]
    exact ⟨fun h => Or.inr ⟨h, h2⟩, fun h => h.elim (fun h => absurd h.2 h1) (fun h => h.1)⟩
  · rw [if_neg h1, if_neg h2]
    simp only [List.not_mem_nil, or_self, false_iff]
    rintro (h | h)
    · exact h1 h.2
    · exact h2 h.2

theorem checkPin_key {α : Type} [LinearOrder α] [Zero α] (p : If_Lib_t α) (i k : Int)
    (w : Warning α) (h : w ∈ checkPin p i k) : w.size = i ∧ w.pin = k := by
  rcases (mem_checkPin p i k w).mp h with ⟨rfl, -⟩ | ⟨rfl, -⟩ <;> exact ⟨rfl, rfl⟩

theorem nodup_checkPin {α : Type} [LinearOrder α] [Zero α] (p : If_Lib_t α) (i k : Int) :
    (checkPin p i k).Nodup := by
  unfold checkPin
  split <;> split <;> simp

theorem mem_checkRow {α : Type} [LinearOrder α] [Zero α] (p : If_Lib_t α) (i : Int)
    (w : Warning α) :
    w ∈ checkRow p i ↔ ∃ k : Int, 0 ≤ k ∧ k < i ∧ w ∈ checkPin p i k := by
  unfold checkRow
  rw [List.mem_flatMap]
  constructor
  · rintro ⟨n, hn, hw⟩
    rw [List.mem_range] at hn
    exact ⟨n, by omega, by omega, hw⟩
  · rintro ⟨k, h0, h1, hw⟩
    refine ⟨k.toNat, List.mem_range.mpr (by omega), ?_⟩
    rwa [Int.toNat_of_nonneg h0]

theorem nodup_checkRow {α : Type} [LinearOrder α] [Zero α] (p : If_Lib_t α) (i : Int) :
    (checkRow p i).Nodup := by
  unfold checkRow
  refine nodup_flatMap_range _ _ Warning.pin 0 (fun n w hw => ?_) (fun n => nodup_checkPin p i n)
  rw [(checkPin_key p i n w hw).2, add_zero]

theorem checkRow_size {α : Type} [LinearOrder α] [Zero α] (p : If_Lib_t α) (i : Int)
    (w : Warning α) (h : w ∈ checkRow p i) : w.size = i := by
  obtain ⟨k, -, -, hw⟩ := (mem_checkRow p i w).mp h
  exact (checkPin_key p i k w hw).1

theorem mem_checkLut {α : Type} [LinearOrder α] [Zero α] (p : If_Lib_t α) (k i : Int)
    (w : Warning α) :
    w ∈ checkLut p k i ↔ w = .lutDelay k i (p.pLutDelays i 0) ∧ p.pLutDelays i 0 ≤ 0 := by
  unfold checkLut
  split
  · rename_i h
    simp only [List.mem_singleton]
    exact ⟨fun hw => ⟨hw, h⟩, fun hw => hw.1⟩
  · rename_i h
    simp only [List.not_mem_nil, false_iff]
    exact fun hw => h hw.2

theorem mem_range_succ_loop {β : Type} (N : Int) (f : Int → List β) (w : β) :
    w ∈ (List.range N.toNat).flatMap (fun j => f ((j : Int) + 1)) ↔
      ∃ i : Int, 1 ≤ i ∧ i ≤ N ∧ w ∈ f i := by
  rw [List.mem_flatMap]
  constructor
  · rintro ⟨n, hn, hw⟩
    rw [List.mem_range] at hn
    exact ⟨(n : Int) + 1, by omega, by omega, hw⟩
  · rintro ⟨i, h1, h2, hw⟩
    refine ⟨(i - 1).toNat, List.mem_range.mpr (by omega), ?_⟩
    rwa [show (((i - 1).toNat : Nat) : Int) + 1 = i by omega]

/-- The warnings of the check in variable mode: one for every pin with a
delay that is not positive and one for every pin with a delay below that of
the pin before it, none twice. -/
theorem checkLib_variable {α : Type} [LinearOrder α] [Zero α] (p : If_Lib_t α) (k0 : Int)
    (hv : p.fVarPinDelays ≠ 0) :
    (checkLib p k0).Nodup ∧
    ∀ w, w ∈ checkLib p k0 ↔
      ∃ i k : Int, 1 ≤ i ∧ i ≤ p.LutMax ∧ 0 ≤ k ∧ k < i ∧
        ((w = .pinDelay k i (p.pLutDelays i k) ∧ p.pLutDelays i k ≤ 0) ∨
         (w = .pinOrder (k - 1) i (p.pLutDelays i (k - 1)) k i (p.pLutDelays i k) ∧
            0 < k ∧ p.pLutDelays i (k - 1) > p.pLutDelays i k)) := by
  unfold checkLib
  rw [if_pos hv]
  constructor
  · refine nodup_flatMap_range _ _ Warning.size 1 (fun n w hw => ?_)
      (fun n => nodup_checkRow p _)
    exact checkRow_size p _ w hw
  · intro w
    rw [mem_range_succ_loop p.LutMax (fun i => checkRow p i) w]
    constructor
    · rintro ⟨i, h1, h2, hw⟩
      obtain ⟨k, hk0, hk1, hw⟩ := (mem_checkRow p i w).mp hw
      refine ⟨i, k, h1, h2, hk0, hk1, ?_⟩
      rcases (mem_checkPin p i k w).mp hw with h | ⟨h, hk, hd⟩
      · exact Or.inl h
      · exact Or.inr ⟨h, by omega, hd⟩
    · rintro ⟨i, k, h1, h2, hk0, hk1, h⟩
      refine ⟨i, h1, h2, (mem_checkRow p i w).mpr ⟨k, hk0, hk1, (mem_checkPin p i k w).mpr ?_⟩⟩
      rcases h with h | ⟨h, hk, hd⟩
      · exact Or.inl h
      · exact Or.inr ⟨h, by omega, hd⟩

/-- The warnings of the check in uniform mode: one for every size with a
pin-0 delay that is not positive, none twice. -/
theorem checkLib_uniform {α : Type} [LinearOrder α] [Zero α] (p : If_Lib_t α) (k0 : Int)
    (hu : p.fVarPinDelays = 0) :
    (checkLib p k0).Nodup ∧
    ∀ w, w ∈ checkLib p k0 ↔
      ∃ i : Int, 1 ≤ i ∧ i ≤ p.LutMax ∧
        w = .lutDelay k0 i (p.pLutDelays i 0) ∧ p.pLutDelays i 0 ≤ 0 := by
  unfold checkLib
  rw [if_neg (by simp [hu])]
  constructor
  · refine nodup_flatMap_range _ _ Warning.size 1 (fun n w hw => ?_) (fun n => ?_)
    · obtain ⟨rfl, -⟩ := (mem_checkLut p k0 _ w).mp hw
      rfl
    · unfold checkLut
      split <;> simp
  · intro w
    rw [mem_range_succ_loop p.LutMax (fun i => checkLut p k0 i) w]
    constructor
    · rintro ⟨i, h1, h2, hw⟩
      exact ⟨i, h1, h2, (mem_checkLut p k0 i w).mp hw⟩
    · rintro ⟨i, h1, h2, hw⟩
      exact ⟨i, h1, h2, (mem_checkLut p k0 i w).mpr hw⟩

/-- The areas are not looked at by the check. -/
theorem checkLib_areas {α : Type} [LinearOrder α] [Zero α] (p : If_Lib_t α) (k0 : Int)
    (areas : Int → α) :
    checkLib { p with pLutAreas := areas } k0 = checkLib p k0 := rfl

theorem If_LutLibReadWarnings_of_lib {α : Type} [LinearOrder α] [Zero α] (M : Nat)
    (atoi : List Char → Int) (atof : List Char → α) (FileName : String)
    (text : List Char) (p : If_Lib_t α)
    (h : If_LutLibRead M atoi atof FileName (some text) = .lib p) :
    If_LutLibReadWarnings M atoi atof FileName (some text) =
      checkLib p (kAfterLoop (entries (fileLines text))) := by
  unfold If_LutLibReadWarnings
  rw [h]

theorem storeRow_beyond {α : Type} (atof : List Char → α) (i : Nat)
    (ds : List (List Char)) (k : Nat) (t : Int → Int → α) (j m : Int)
    (h : ((k + ds.length : Nat) : Int) ≤ m) :
    storeRow atof i ds k t j m = t j m := by
  induction ds generalizing k t with
  | nil => rfl
  | cons d ds ih =>
    simp only [List.length_cons] at h
    simp only [storeRow]
    rw [ih (k + 1) _ (by push_cast at h ⊢; omega)]
    unfold setAt2
    rw [if_neg]
    rintro ⟨-, h2⟩
    push_cast at h
    omega

theorem buildLib_delay_beyond {α : Type} (atof : List Char → α)
    (es : List (List (List Char))) (i : Nat) (p : If_Lib_t α) (j : Nat)
    (tok a : List Char) (ds : List (List Char)) (m : Int)
    (h : es[j]? = some (tok :: a :: ds)) (hm : (ds.length : Int) ≤ m) :
    (buildLib atof es i p).pLutDelays ((i + j : Nat) : Int) m =
      p.pLutDelays ((i + j : Nat) : Int) m := by
  induction es generalizing i p j with
  | nil => simp at h
  | cons e es ih =>
    cases j with
    | zero =>
      simp only [List.getElem?_cons_zero, Option.some.injEq] at h
      subst h
      rw [buildLib, buildLib_delays_lt atof es (i + 1) _ _ _ (by push_cast; omega)]
      simp only [storeEntry, Nat.add_zero]
      exact storeRow_beyond atof i ds 0 _ _ m (by simpa using hm)
    | succ j =>
      simp only [List.getElem?_cons_succ] at h
      rw [buildLib, show i + (j + 1) = i + 1 + j by omega, ih (i + 1) _ j h]
      exact storeEntry_delays_ne atof i p e _ m (by push_cast; omega)

theorem allAccepted_length_lt (M : Nat) (atoi : List Char → Int)
    (es : List (List (List Char))) (i : Nat) (h : AllAccepted M atoi es i)
    (hne : es ≠ []) : i + es.length ≤ M := by
  induction es generalizing i with
  | nil => exact absurd rfl hne
  | cons e es ih =>
    obtain ⟨hacc, hrest⟩ := h
    cases es with
    | nil =>
      match e, hacc with
      | tok :: a :: ds, hacc =>
        have := hacc.2.2
        simp only [List.length_cons, List.length_nil]; omega
    | cons e' es' =>
      have := ih (i + 1) hrest (by simp)
      simp only [List.length_cons] at this ⊢
      omega

/-- A store of the delay loop falls outside the row exactly when the line has
a delay token and either the row index is above `IF_MAX_LUTSIZE` or the line
carries more than `IF_MAX_LUTSIZE+1` delay tokens from the current `k` on. -/
theorem readDelays_eq_none_iff {α : Type} (M : Nat) (atof : List Char → α) (i : Nat)
    (ds : List (List Char)) (k : Nat) (t : Int → Int → α) :
    readDelays M atof i ds k t = none ↔
      ds ≠ [] ∧ (M < i ∨ M + 1 < k + ds.length) := by
  induction ds generalizing k t with
  | nil => simp [readDelays]
  | cons d ds ih =>
    rw [readDelays]
    by_cases h : i ≤ M ∧ k ≤ M
    · rw [if_pos h, ih]
      simp only [List.length_cons, ne_eq, reduceCtorEq, not_false_eq_true, true_and]
      constructor
      · rintro ⟨-, h1 | h1⟩
        · exact Or.inl h1
        · right; omega
      · rintro (h1 | h1)
        · omega
        · cases ds with
          | nil => simp only [List.length_nil] at h1; omega
          | cons d' ds' =>
            refine ⟨by simp, Or.inr ?_⟩
            simp only [List.length_cons] at h1 ⊢; omega
    · rw [if_neg h]
      simp only [List.length_cons, ne_eq, reduceCtorEq, not_false_eq_true, true_and, true_iff]
      by_cases hi : M < i
      · exact Or.inl hi
      · right; omega

/-- C14: the warnings in variable mode.  When every entry line passes the
checks of the line loop and some entry line has more than one delay value,
`If_LutLibRead` returns a library with `fVarPinDelays` set, and its warnings
are, each once: for every size `i` in `1..LutMax` and every pin `k` in
`0..i-1`, a non-positive-delay warning when `pLutDelays[i][k] <= 0` and an
ordering warning when `k > 0` and `pLutDelays[i][k-1] > pLutDelays[i][k]`;
there is no other warning. -/
theorem If_LutLibRead_variable_mode_warnings {α : Type} [LinearOrder α] [Zero α]
    (M : Nat) (atoi : List Char → Int) (atof : List Char → α) (FileName : String)
    (text : List Char)
    (hs : AllAccepted M atoi (entries (fileLines text)) 1)
    (hv : ∃ toks ∈ entries (fileLines text), 1 < delayCount toks) :
    ∃ p, If_LutLibRead M atoi atof FileName (some text) = .lib p ∧
      p.fVarPinDelays ≠ 0 ∧
      (If_LutLibReadWarnings M atoi atof FileName (some text)).Nodup ∧
      ∀ w, w ∈ If_LutLibReadWarnings M atoi atof FileName (some text) ↔
        ∃ i k : Int, 1 ≤ i ∧ i ≤ p.LutMax ∧ 0 ≤ k ∧ k < i ∧
          ((w = .pinDelay k i (p.pLutDelays i k) ∧ p.pLutDelays i k ≤ 0) ∨
           (w = .pinOrder (k - 1) i (p.pLutDelays i (k - 1)) k i (p.pLutDelays i k) ∧
              0 < k ∧ p.pLutDelays i (k - 1) > p.pLutDelays i k)) := by
  have hp := (If_LutLibRead_eq_lib_iff M atoi atof FileName text _).mpr ⟨hs, rfl⟩
  have hf : (buildLib atof (entries (fileLines text)) 1 (newLib FileName)).fVarPinDelays ≠ 0 := by
    rw [buildLib_fVar, if_pos hv]; decide
  refine ⟨_, hp, hf, ?_⟩
  rw [If_LutLibReadWarnings_of_lib M atoi atof FileName text _ hp]
  exact checkLib_variable _ _ hf

/-- C15: the warnings in uniform mode.  When every entry line passes the
checks of the line loop and no entry line has more than one delay value,
`If_LutLibRead` returns the library of the entry lines (`LutMax` their
number, the areas and delays of their tokens, `fVarPinDelays` clear) and its
warnings are, each once, one for every size `i` in `1..LutMax` with
`pLutDelays[i][0] <= 0`; there is no other warning. -/
theorem If_LutLibRead_uniform_mode_warnings {α : Type} [LinearOrder α] [Zero α]
    (M : Nat) (atoi : List Char → Int) (atof : List Char → α) (FileName : String)
    (text : List Char)
    (hs : AllAccepted M atoi (entries (fileLines text)) 1)
    (hu : ∀ toks ∈ entries (fileLines text), delayCount toks ≤ 1) :
    ∃ p, If_LutLibRead M atoi atof FileName (some text) = .lib p ∧
      p.fVarPinDelays = 0 ∧
      p.LutMax = ((entries (fileLines text)).length : Int) ∧
      (∀ j tok a ds, (entries (fileLines text))[j]? = some (tok :: a :: ds) →
        p.pLutAreas ((j + 1 : Nat) : Int) = atof a ∧
        ∀ (m : Nat) (d : List Char), ds[m]? = some d →
          p.pLutDelays ((j + 1 : Nat) : Int) (m : Int) = atof d) ∧
      (If_LutLibReadWarnings M atoi atof FileName (some text)).Nodup ∧
      ∀ w, w ∈ If_LutLibReadWarnings M atoi atof FileName (some text) ↔
        ∃ i : Int, 1 ≤ i ∧ i ≤ p.LutMax ∧
          w = .lutDelay (kAfterLoop (entries (fileLines text))) i (p.pLutDelays i 0) ∧
          p.pLutDelays i 0 ≤ 0 := by
  have hp := (If_LutLibRead_eq_lib_iff M atoi atof FileName text _).mpr ⟨hs, rfl⟩
  have hf : (buildLib atof (entries (fileLines text)) 1 (newLib FileName)).fVarPinDelays = 0 := by
    rw [buildLib_fVar, if_neg]
    · rfl
    · rintro ⟨toks, hmem, hlt⟩
      have := hu toks hmem
      omega
  refine ⟨_, hp, hf, ?_, ?_, ?_⟩
  · rw [buildLib_LutMax]; push_cast; ring
  · intro j tok a ds hj
    constructor
    · rw [show j + 1 = 1 + j by omega]
      exact buildLib_area_at atof _ 1 _ j tok a ds hj
    · intro m d hd
      rw [show j + 1 = 1 + j by omega]
      exact buildLib_delay_at atof _ 1 _ j tok a ds m d hj hd
  · rw [If_LutLibReadWarnings_of_lib M atoi atof FileName text _ hp]
    exact checkLib_uniform _ _ hf

/-- C16 (what the code does instead): the input `"1 -1 1\n"` has the negative
area `-1`; the library is returned and no warning is printed. -/
theorem If_LutLibRead_negative_area_counterexample :
    ∃ p, If_LutLibRead 32 atoiDec atofDec "lib.txt" (some "1 -1 1\n".toList) = .lib p ∧
      p.pLutAreas 1 < 0 ∧
      If_LutLibReadWarnings 32 atoiDec atofDec "lib.txt" (some "1 -1 1\n".toList) = [] :=
  ⟨_, rfl, by decide, by decide⟩

/-- C16, amended: when every entry line passes the checks of the line loop,
`If_LutLibRead` returns the library whatever the area values are, and the
areas are not checked: the warnings are those of the check of the delays and
stay the same when the areas are replaced by any others. -/
theorem If_LutLibRead_areas_not_checked {α : Type} [LinearOrder α] [Zero α]
    (M : Nat) (atoi : List Char → Int) (atof : List Char → α) (FileName : String)
    (text : List Char)
    (hs : AllAccepted M atoi (entries (fileLines text)) 1) :
    ∃ p, If_LutLibRead M atoi atof FileName (some text) = .lib p ∧
      ∀ areas : Int → α,
        If_LutLibReadWarnings M atoi atof FileName (some text) =
          checkLib { p with pLutAreas := areas } (kAfterLoop (entries (fileLines text))) := by
  have hp := (If_LutLibRead_eq_lib_iff M atoi atof FileName text _).mpr ⟨hs, rfl⟩
  refine ⟨_, hp, fun areas => ?_⟩
  rw [If_LutLibReadWarnings_of_lib M atoi atof FileName text _ hp]
  exact (checkLib_areas _ _ areas).symm

/-- C17: an incomplete delay row in variable mode warns and does not fail.
When every entry line passes the checks of the line loop, some entry line has
more than one delay value, and the entry line of size `i` has `c < i` delay
values, `If_LutLibRead` returns a library in which `pLutDelays[i][c]` is `0`,
and the non-positive-delay warning for pin `c` of size `i` is printed. -/
theorem If_LutLibRead_incomplete_row_warns {α : Type} [LinearOrder α] [Zero α]
    (M : Nat) (atoi : List Char → Int) (atof : List Char → α) (FileName : String)
    (text : List Char)
    (hs : AllAccepted M atoi (entries (fileLines text)) 1)
    (hv : ∃ toks ∈ entries (fileLines text), 1 < delayCount toks)
    (j : Nat) (e : List (List Char))
    (hj : (entries (fileLines text))[j]? = some e)
    (hc : delayCount e < j + 1) :
    ∃ p, If_LutLibRead M atoi atof FileName (some text) = .lib p ∧
      p.pLutDelays ((j + 1 : Nat) : Int) (delayCount e : Int) = 0 ∧
      Warning.pinDelay (delayCount e : Int) ((j + 1 : Nat) : Int) 0 ∈
        If_LutLibReadWarnings M atoi atof FileName (some text) := by
  have hp := (If_LutLibRead_eq_lib_iff M atoi atof FileName text _).mpr ⟨hs, rfl⟩
  have hf : (buildLib atof (entries (fileLines text)) 1 (newLib FileName)).fVarPinDelays ≠ 0 := by
    rw [buildLib_fVar, if_pos hv]; decide
  have hacc := (allAccepted_iff M atoi _ 1).mp hs j e hj
  have hlen : j < (entries (fileLines text)).length := by
    by_contra hge
    rw [List.getElem?_eq_none (by omega)] at hj
    exact absurd hj (by simp)
  match e, hj, hc, hacc with
  | tok :: a :: ds, hj, hc, hacc =>
    have hdc : delayCount (tok :: a :: ds) = ds.length := by
      simp [delayCount]
    rw [hdc] at hc ⊢
    have hzero : (buildLib atof (entries (fileLines text)) 1 (newLib FileName)).pLutDelays
        ((j + 1 : Nat) : Int) (ds.length : Int) = 0 := by
      rw [show j + 1 = 1 + j by omega,
        buildLib_delay_beyond atof _ 1 _ j tok a ds _ hj (le_refl _)]
      rfl
    refine ⟨_, hp, hzero, ?_⟩
    rw [If_LutLibReadWarnings_of_lib M atoi atof FileName text _ hp]
    rw [(checkLib_variable _ _ hf).2]
    refine ⟨((j + 1 : Nat) : Int), (ds.length : Int), by push_cast; omega, ?_,
      by omega, by push_cast; omega, Or.inl ⟨?_, ?_⟩⟩
    · rw [buildLib_LutMax]; push_cast; omega
    · rw [hzero]
    · rw [hzero]

/-- C18: the slowest-pin index on a library that was read.  In every library
`If_LutLibRead` returns, `fVarPinDelays` set implies `LutMax >= 2`, so the
index `LutMax-1` is at least `1`, below `LutMax` and within the row of
`IF_MAX_LUTSIZE+1` slots; and when `LutMax = 0` the flag is clear,
`pLutDelays[0][0]` is `0` and `If_LutLibSlowestPinDelay` returns it. -/
theorem If_LutLibRead_slowest_index_valid {α : Type} [Zero α] [One α] (M : Nat)
    (atoi : List Char → Int) (atof : List Char → α) (FileName : String)
    (text : List Char) (p : If_Lib_t α)
    (h : If_LutLibRead M atoi atof FileName (some text) = .lib p) :
    (p.fVarPinDelays ≠ 0 →
      2 ≤ p.LutMax ∧ 0 ≤ p.LutMax - 1 ∧ p.LutMax - 1 < p.LutMax ∧
      p.LutMax - 1 ≤ (M : Int) ∧ p.LutMax ≤ (M : Int)) ∧
    (p.LutMax = 0 →
      p.fVarPinDelays = 0 ∧ p.pLutDelays 0 0 = 0 ∧
      If_LutLibSlowestPinDelay (some p) = 0) := by
  obtain ⟨hs, rfl⟩ := (If_LutLibRead_eq_lib_iff M atoi atof FileName text p).mp h
  have hmax : (buildLib atof (entries (fileLines text)) 1 (newLib FileName)).LutMax
      = ((entries (fileLines text)).length : Int) := by
    rw [buildLib_LutMax]; push_cast; ring
  constructor
  · intro hf
    rw [buildLib_fVar] at hf
    have hex : ∃ e ∈ entries (fileLines text), 1 < delayCount e := by
      by_contra hno
      rw [if_neg hno] at hf
      exact hf rfl
    obtain ⟨e, hmem, hd⟩ := hex
    obtain ⟨j, hjlt, hje⟩ := List.getElem_of_mem hmem
    have hacc := (allAccepted_iff M atoi _ 1).mp hs j e
      (by rw [List.getElem?_eq_getElem hjlt, hje])
    have hne : entries (fileLines text) ≠ [] := List.ne_nil_of_mem hmem
    have hle := allAccepted_length_lt M atoi _ 1 hs hne
    rw [hmax]
    match e, hd, hacc with
    | tok :: a :: ds, hd, hacc =>
      have h2 := hacc.2.1
      simp only [delayCount, List.length_cons] at hd
      refine ⟨?_, ?_, ?_, ?_, ?_⟩ <;> omega
  · intro h0
    rw [hmax] at h0
    have hnil : entries (fileLines text) = [] :=
      List.length_eq_zero.mp (by exact_mod_cast h0)
    rw [hnil]
    refine ⟨rfl, rfl, ?_⟩
    simp [If_LutLibSlowestPinDelay, buildLib, newLib]

/-- C19 (what the code does): with `IF_MAX_LUTSIZE = 32`, the line
`1 0` followed by 34 delay tokens makes the delay loop store outside the row
`pLutDelays[1]` of 33 slots (the 34th value goes to index 33) before the check
`k > i` is reached; in the model the call does not return. -/
theorem If_LutLibRead_store_outside_row :
    If_LutLibRead 32 atoiDec atofDec "lib.txt"
      (some "1 0 0 0 0 0 0 0 0 0 0 0 0 0 0 0 0 0 0 0 0 0 0 0 0 0 0 0 0 0 0 0 0 0 0 0\n".toList) = .fault ∧
    lineTokens "1 0 0 0 0 0 0 0 0 0 0 0 0 0 0 0 0 0 0 0 0 0 0 0 0 0 0 0 0 0 0 0 0 0 0 0\n".toList =
      "1".toList :: "0".toList :: List.replicate 34 "0".toList ∧
    readDelays 32 atofDec 1 (List.replicate 34 "0".toList) 0
      (newLib "lib.txt" : If_Lib_t ℚ).pLutDelays = none ∧
    (∀ n, n ≤ 33 → readDelays 32 atofDec 1 (List.replicate n "0".toList) 0
      (newLib "lib.txt" : If_Lib_t ℚ).pLutDelays ≠ none) := by
  refine ⟨rfl, by decide, ?_, fun n hn => ?_⟩
  · rw [readDelays_eq_none_iff]
    exact ⟨by decide, Or.inr (by decide)⟩
  · rw [Ne, readDelays_eq_none_iff]
    rintro ⟨-, h | h⟩
    · omega
    · simp only [List.length_replicate] at h
      omega

/-- In `"1 1 1\n2 1 2 1\n"` the delays of size `2` are `2` and `1`: the
library is returned and the one warning is the ordering warning for pin `1`
of size `2`. -/
theorem If_LutLibRead_variable_mode_warnings_witness :
    (∃ p, If_LutLibRead 32 atoiDec atofDec "lib.txt" (some "1 1 1\n2 1 2 1\n".toList) = .lib p ∧
      p.fVarPinDelays ≠ 0 ∧
      (If_LutLibReadWarnings 32 atoiDec atofDec "lib.txt"
        (some "1 1 1\n2 1 2 1\n".toList)).Nodup ∧
      ∀ w, w ∈ If_LutLibReadWarnings 32 atoiDec atofDec "lib.txt"
          (some "1 1 1\n2 1 2 1\n".toList) ↔
        ∃ i k : Int, 1 ≤ i ∧ i ≤ p.LutMax ∧ 0 ≤ k ∧ k < i ∧
          ((w = .pinDelay k i (p.pLutDelays i k) ∧ p.pLutDelays i k ≤ 0) ∨
           (w = .pinOrder (k - 1) i (p.pLutDelays i (k - 1)) k i (p.pLutDelays i k) ∧
              0 < k ∧ p.pLutDelays i (k - 1) > p.pLutDelays i k))) ∧
    If_LutLibReadWarnings 32 atoiDec atofDec "lib.txt" (some "1 1 1\n2 1 2 1\n".toList) =
      [Warning.pinOrder 0 2 2 1 2 1] :=
  ⟨If_LutLibRead_variable_mode_warnings 32 atoiDec atofDec "lib.txt"
      "1 1 1\n2 1 2 1\n".toList
      ⟨⟨by decide, by decide, by decide⟩, ⟨by decide, by decide, by decide⟩, trivial⟩
      ⟨["2".toList, "1".toList, "2".toList, "1".toList], by decide, by decide⟩,
   by decide⟩

/-- In `"1 -1 -1\n2 1 0\n"` both pin-0 delays are not positive: the library
is returned with the values as read and there is one warning for each size. -/
theorem If_LutLibRead_uniform_mode_warnings_witness :
    (∃ p, If_LutLibRead 32 atoiDec atofDec "lib.txt" (some "1 -1 -1\n2 1 0\n".toList) = .lib p ∧
      p.LutMax = 2 ∧ p.fVarPinDelays = 0 ∧ p.pLutAreas 1 = -1 ∧ p.pLutDelays 1 0 = -1 ∧
      p.pLutAreas 2 = 1 ∧ p.pLutDelays 2 0 = 0) ∧
    (If_LutLibReadWarnings 32 atoiDec atofDec "lib.txt"
      (some "1 -1 -1\n2 1 0\n".toList)).Nodup ∧
    If_LutLibReadWarnings 32 atoiDec atofDec "lib.txt" (some "1 -1 -1\n2 1 0\n".toList) =
      [Warning.lutDelay 1 1 (-1), Warning.lutDelay 1 2 0] := by
  obtain ⟨p, hp, hf, hmax, htab, hnd, -⟩ :=
    If_LutLibRead_uniform_mode_warnings 32 atoiDec atofDec "lib.txt"
      "1 -1 -1\n2 1 0\n".toList
      ⟨⟨by decide, by decide, by decide⟩, ⟨by decide, by decide, by decide⟩, trivial⟩
      (by decide)
  have h1 := htab 0 _ _ _ rfl
  have h2 := htab 1 _ _ _ rfl
  exact ⟨⟨p, hp, hmax, hf, h1.1, h1.2 0 _ rfl, h2.1, h2.2 0 _ rfl⟩, hnd, by decide⟩

/-- The input `"1 -1 1\n"` with the negative area `-1` gives a library, and
its warnings (none) are those of the check with any other areas. -/
theorem If_LutLibRead_areas_not_checked_witness :
    ∃ p, If_LutLibRead 32 atoiDec atofDec "lib.txt" (some "1 -1 1\n".toList) = .lib p ∧
      ∀ areas : Int → ℚ,
        If_LutLibReadWarnings 32 atoiDec atofDec "lib.txt" (some "1 -1 1\n".toList) =
          checkLib { p with pLutAreas := areas }
            (kAfterLoop (entries (fileLines "1 -1 1\n".toList))) :=
  If_LutLibRead_areas_not_checked 32 atoiDec atofDec "lib.txt" "1 -1 1\n".toList
    ⟨⟨by decide, by decide, by decide⟩, trivial⟩

/-- In `"1 1 1\n2 1 1 1\n3 1 1\n"` size `3` has one delay value in variable
mode: the library is returned, `pLutDelays[3][1]` is `0` and the warning for
pin `1` of size `3` is printed. -/
theorem If_LutLibRead_incomplete_row_warns_witness :
    ∃ p, If_LutLibRead 32 atoiDec atofDec "lib.txt"
        (some "1 1 1\n2 1 1 1\n3 1 1\n".toList) = .lib p ∧
      p.pLutDelays 3 1 = 0 ∧
      Warning.pinDelay 1 3 0 ∈
        If_LutLibReadWarnings 32 atoiDec atofDec "lib.txt"
          (some "1 1 1\n2 1 1 1\n3 1 1\n".toList) :=
  If_LutLibRead_incomplete_row_warns 32 atoiDec atofDec "lib.txt"
    "1 1 1\n2 1 1 1\n3 1 1\n".toList
    ⟨⟨by decide, by decide, by decide⟩, ⟨by decide, by decide, by decide⟩,
      ⟨by decide, by decide, by decide⟩, trivial⟩
    ⟨["2".toList, "1".toList, "1".toList, "1".toList], by decide, by decide⟩
    2 ["3".toList, "1".toList, "1".toList] rfl (by decide)

/-- The library read from `"1 1 1\n2 1 1 2\n"` has the flag set and
`LutMax = 2`, so the slowest pin is read at index `1`; the library read from
an empty file has `LutMax = 0`, the flag clear and slowest pin delay `0`. -/
theorem If_LutLibRead_slowest_index_valid_witness :
    (∃ p, If_LutLibRead 32 atoiDec atofDec "lib.txt" (some "1 1 1\n2 1 1 2\n".toList) = .lib p ∧
      2 ≤ p.LutMax ∧ 0 ≤ p.LutMax - 1 ∧ p.LutMax - 1 < p.LutMax ∧
      p.LutMax - 1 ≤ 32 ∧ p.LutMax ≤ 32) ∧
    (∃ p, If_LutLibRead 32 atoiDec atofDec "lib.txt" (some "".toList) = .lib p ∧
      p.fVarPinDelays = 0 ∧ p.pLutDelays 0 0 = 0 ∧
      If_LutLibSlowestPinDelay (some p) = 0) :=
  ⟨⟨_, rfl, (If_LutLibRead_slowest_index_valid 32 atoiDec atofDec "lib.txt"
      "1 1 1\n2 1 1 2\n".toList _ rfl).1 (by decide)⟩,
   ⟨_, rfl, (If_LutLibRead_slowest_index_valid 32 atoiDec atofDec "lib.txt"
      "".toList _ rfl).2 (by decide)⟩⟩

/-! ## Reading a printed text: lines -/

theorem fgetsAux_line (room : Nat) (body rest : List Char)
    (hnl : '\n' ∉ body) (hlen : body.length < room) :
    fgetsAux room (body ++ '\n' :: rest) = (body ++ ['\n'], rest) := by
  induction body generalizing room with
  | nil =>
    cases room with
    | zero => omega
    | succ r => simp [fgetsAux]
  | cons c body ih =>
    cases room with
    | zero => omega
    | succ r =>
      have hc : c ≠ '\n' := fun h => hnl (by simp [h])
      have hb : '\n' ∉ body := fun h => hnl (List.mem_cons_of_mem _ h)
      simp only [List.length_cons] at hlen
      have hrec := ih r hb (by omega)
      rw [List.cons_append, fgetsAux, if_neg hc, hrec]
      rfl

theorem isLine_split (l : List Char) (h : IsLine l) :
    l = l.dropLast ++ ['\n'] := by
  obtain ⟨h1, -, -⟩ := h
  have hne : l ≠ [] := by
    rintro rfl
    simp at h1
  have := List.dropLast_append_getLast hne
  rw [List.getLast?_eq_getLast _ hne, Option.some.injEq] at h1
  rw [h1] at this
  exact this.symm

/-- A line at the head of a file is what the first call of `fgets` delivers. -/
theorem fileLines_line_append (l rest : List Char) (h : IsLine l) :
    fileLines (l ++ rest) = l :: fileLines rest := by
  have hsplit := isLine_split l h
  obtain ⟨-, hnl, hlen⟩ := h
  have hbody : l.dropLast.length < 999 := by
    have : l.length = l.dropLast.length + 1 := by
      conv_lhs => rw [hsplit]
      simp
    omega
  have hs : l ++ rest = l.dropLast ++ '\n' :: rest := by
    conv_lhs => rw [hsplit]
    simp
  have hfg : fgetsAux 999 (l ++ rest) = (l, rest) := by
    rw [hs, fgetsAux_line 999 _ rest hnl hbody, ← hsplit]
  have hlen2 : (l ++ rest).length = (l.dropLast.length + rest.length) + 1 := by
    rw [hs]; simp; omega
  unfold fileLines
  rw [hlen2, fileLinesAux]
  cases hcase : l ++ rest with
  | nil => rw [hcase] at hlen2; simp at hlen2
  | cons c s =>
    rw [hcase] at hfg
    simp only [fgets, Nat.reduceSub, hfg]
    rw [fileLinesAux_fuel _ rest (by omega)]
    rfl

theorem tokens_of_strtok_none (s : List Char) (h : strtok s = none) : tokens s = [] := by
  unfold tokens
  cases hl : s.length with
  | zero => rfl
  | succ n => simp only [tokensAux, h]

theorem tokens_of_strtok_some (s t r : List Char) (h : strtok s = some (t, r)) :
    tokens s = t :: tokens r := by
  have hlt := strtok_length s t r h
  unfold tokens
  cases hl : s.length with
  | zero => omega
  | succ n =>
    simp only [tokensAux, h]
    rw [tokensAux_fuel n r (by omega)]
    rfl

theorem strtok_skip (c : Char) (r : List Char) (hc : isDelim c = true) :
    strtok (c :: r) = strtok r := by
  unfold strtok
  rw [List.dropWhile_cons_of_pos hc]

theorem tokens_skip (c : Char) (r : List Char) (hc : isDelim c = true) :
    tokens (c :: r) = tokens r := by
  cases h : strtok r with
  | none =>
    rw [tokens_of_strtok_none r h, tokens_of_strtok_none (c :: r) (by rw [strtok_skip c r hc, h])]
  | some tr =>
    obtain ⟨t, rest⟩ := tr
    rw [tokens_of_strtok_some r t rest h,
      tokens_of_strtok_some (c :: r) t rest (by rw [strtok_skip c r hc, h])]

/-- Delimiters in front of a string are skipped. -/
theorem tokens_delims (d x : List Char) (hd : ∀ c ∈ d, isDelim c = true) :
    tokens (d ++ x) = tokens x := by
  induction d with
  | nil => rfl
  | cons c d ih =>
    rw [List.cons_append, tokens_skip c _ (hd c (List.mem_cons_self _ _))]
    exact ih (fun c' hc' => hd c' (List.mem_cons_of_mem _ hc'))

theorem tokens_nil : tokens [] = [] := rfl

/-- A token in front of a string that is empty or starts with a delimiter is
the first token. -/
theorem tokens_token (t r : List Char) (ht : IsToken t)
    (hr : r = [] ∨ ∃ c r', r = c :: r' ∧ isDelim c = true) :
    tokens (t ++ r) = t :: tokens r := by
  obtain ⟨hne, hall⟩ := ht
  have hnd : ∀ c ∈ t, (fun x => !isDelim x) c = true := by
    intro c hc
    simp [(hall c hc).1]
  cases t with
  | nil => exact absurd rfl hne
  | cons c0 t' =>
    have hc0 : ¬ isDelim c0 = true := by
      simp [(hall c0 (List.mem_cons_self _ _)).1]
    have htake : ((c0 :: t') ++ r).takeWhile (fun x => !isDelim x) = c0 :: t' := by
      rw [List.takeWhile_append_of_pos hnd]
      rcases hr with rfl | ⟨c, r', rfl, hc⟩
      · simp
      · rw [List.takeWhile_cons_of_neg (by simp [hc])]
        simp
    have hdrop : ((c0 :: t') ++ r).dropWhile (fun x => !isDelim x) = r := by
      rw [List.dropWhile_append_of_pos hnd]
      rcases hr with rfl | ⟨c, r', rfl, hc⟩
      · simp
      · rw [List.dropWhile_cons_of_neg (by simp [hc])]
    have hst : strtok ((c0 :: t') ++ r) = some (c0 :: t', r.drop 1) := by
      unfold strtok
      rw [List.cons_append, List.dropWhile_cons_of_neg hc0]
      simp only
      rw [← List.cons_append, htake, hdrop]
    rw [tokens_of_strtok_some _ _ _ hst]
    rcases hr with rfl | ⟨c, r', rfl, hc⟩
    · rfl
    · rw [List.drop_one, List.tail_cons, tokens_skip c r' hc]

theorem tokens_token_cons (t : List Char) (c : Char) (r : List Char) (ht : IsToken t)
    (hc : isDelim c = true) : tokens (t ++ c :: r) = t :: tokens r := by
  rw [tokens_token t (c :: r) ht (Or.inr ⟨c, r, rfl, hc⟩), tokens_skip c r hc]

/-- The tokens of a run of delimiter-token pairs that a newline ends. -/
theorem tokens_pairs {β : Type} (ks : List β) (d t : β → List Char)
    (hd : ∀ k ∈ ks, d k ≠ [] ∧ ∀ c ∈ d k, isDelim c = true)
    (ht : ∀ k ∈ ks, IsToken (t k)) :
    tokens (ks.flatMap (fun k => d k ++ t k) ++ ['\n']) = ks.map t := by
  induction ks with
  | nil =>
    show tokens ['\n'] = []
    rfl
  | cons k ks ih =>
    have ih' := ih (fun k' hk' => hd k' (List.mem_cons_of_mem _ hk'))
      (fun k' hk' => ht k' (List.mem_cons_of_mem _ hk'))
    rw [List.flatMap_cons, List.append_assoc, List.append_assoc,
      tokens_delims _ _ (hd k (List.mem_cons_self _ _)).2,
      tokens_token _ _ (ht k (List.mem_cons_self _ _)), ih', List.map_cons]
    right
    cases ks with
    | nil => exact ⟨'\n', [], rfl, rfl⟩
    | cons k' ks' =>
      obtain ⟨hne, hdel⟩ := hd k' (List.mem_cons_of_mem _ (List.mem_cons_self _ _))
      cases hdk : d k' with
      | nil => exact absurd hdk hne
      | cons c dr =>
        refine ⟨c, dr ++ t k' ++ (ks'.flatMap (fun k => d k ++ t k) ++ ['\n']), ?_, ?_⟩
        · rw [List.flatMap_cons, hdk]
          simp
        · exact hdel c (by rw [hdk]; exact List.mem_cons_self _ _)

theorem cstr_eq_self (l : List Char) (h : ∀ c ∈ l, c ≠ '\x00') : cstr l = l := by
  unfold cstr
  rw [List.takeWhile_eq_self_iff]
  intro c hc
  simp [h c hc]

/-! ## Reading a printed text: the printed lines -/

/-- For every value of `IF_MAX_LUTSIZE` from `1` to `495` there is a file of
one line, `1 0` followed by `IF_MAX_LUTSIZE+2` delay tokens, on which the delay
loop stores outside the row before the check `k > i` is reached. -/
theorem delay_store_overrun_for_every_ceiling {α : Type} [Zero α] (M : Nat)
    (atoi : List Char → Int) (atof : List Char → α) (FileName : String)
    (hM1 : 1 ≤ M) (hM2 : M ≤ 495) (hatoi : atoi ['1'] = 1) :
    If_LutLibRead M atoi atof FileName
      (some ("1 0".toList ++ (List.replicate (M + 2) " 0".toList).flatten ++ ['\n'])) = .fault := by
  have hflat : ∀ n : Nat, (List.replicate n " 0".toList).flatten =
      (List.replicate n ()).flatMap (fun _ => [' '] ++ ['0']) := by
    intro n
    induction n with
    | zero => rfl
    | succ n ih =>
      rw [List.replicate_succ, List.flatten_cons, ih, List.replicate_succ, List.flatMap_cons]
      rfl
  have hchars : ∀ c ∈ "1 0".toList ++ (List.replicate (M + 2) " 0".toList).flatten,
      c = '1' ∨ c = ' ' ∨ c = '0' := by
    have h3 : ∀ c ∈ "1 0".toList, c = '1' ∨ c = ' ' ∨ c = '0' := by decide
    have h2 : ∀ c ∈ " 0".toList, c = '1' ∨ c = ' ' ∨ c = '0' := by decide
    intro c hc
    rcases List.mem_append.mp hc with hc | hc
    · exact h3 c hc
    · obtain ⟨l, hl, hcl⟩ := List.mem_flatten.mp hc
      rw [(List.mem_replicate.mp hl).2] at hcl
      exact h2 c hcl
  have hlen : ("1 0".toList ++ (List.replicate (M + 2) " 0".toList).flatten ++ ['\n']).length
      = 2 * M + 8 := by
    have hrep : ∀ n : Nat, (List.replicate n " 0".toList).flatten.length = 2 * n := by
      intro n
      induction n with
      | zero => rfl
      | succ n ih =>
        rw [List.replicate_succ, List.flatten_cons, List.length_append, ih]
        have : " 0".toList.length = 2 := rfl
        omega
    have h3 : "1 0".toList.length = 3 := rfl
    rw [List.length_append, List.length_append, hrep, h3]
    simp only [List.length_cons, List.length_nil]
    omega
  have hline : IsLine
      ("1 0".toList ++ (List.replicate (M + 2) " 0".toList).flatten ++ ['\n']) := by
    refine ⟨List.getLast?_concat _, ?_, by rw [hlen]; omega⟩
    rw [List.dropLast_concat]
    intro hmem
    rcases hchars _ hmem with h | h | h <;> exact absurd h (by decide)
  have hfile : fileLines
      ("1 0".toList ++ (List.replicate (M + 2) " 0".toList).flatten ++ ['\n']) =
      ["1 0".toList ++ (List.replicate (M + 2) " 0".toList).flatten ++ ['\n']] := by
    have := fileLines_line_append _ [] hline
    rwa [List.append_nil] at this
  have hnul : ∀ c ∈ "1 0".toList ++ (List.replicate (M + 2) " 0".toList).flatten ++ ['\n'],
      c ≠ '\x00' := by
    intro c hc
    rcases List.mem_append.mp hc with hc | hc
    · rcases hchars c hc with h | h | h <;> rw [h] <;> decide
    · rw [List.mem_singleton.mp hc]; decide
  have htok : lineTokens
      ("1 0".toList ++ (List.replicate (M + 2) " 0".toList).flatten ++ ['\n']) =
      ['1'] :: ['0'] :: List.replicate (M + 2) ['0'] := by
    unfold lineTokens
    rw [cstr_eq_self _ hnul, hflat]
    have e : "1 0".toList ++ (List.replicate (M + 2) ()).flatMap (fun _ => [' '] ++ ['0']) ++
        ['\n'] =
        ['1'] ++ ' ' :: (['0'] ++ ((List.replicate (M + 2) ()).flatMap
          (fun _ => [' '] ++ ['0']) ++ ['\n'])) := by
      simp only [List.append_assoc]
      rfl
    rw [e, tokens_token_cons ['1'] ' ' _ (by decide) rfl,
      tokens_token ['0']
        ((List.replicate (M + 2) ()).flatMap (fun _ => [' '] ++ ['0']) ++ ['\n']) (by decide)
        (Or.inr ⟨' ', _, rfl, rfl⟩),
      tokens_pairs (List.replicate (M + 2) ()) (fun _ => [' ']) (fun _ => ['0'])
        (fun _ _ => (by decide : [' '] ≠ [] ∧ ∀ c ∈ [' '], isDelim c = true))
        (fun _ _ => (by decide : IsToken ['0'])),
      List.map_replicate]
  have hrd : readDelays M atof 1 (List.replicate (M + 2) ['0']) 0
      (newLib FileName : If_Lib_t α).pLutDelays = none := by
    rw [readDelays_eq_none_iff]
    refine ⟨by simp [List.replicate_succ], Or.inr ?_⟩
    rw [List.length_replicate]; omega
  unfold If_LutLibRead
  simp only
  rw [hfile, readLoop, htok]
  simp only
  rw [if_neg (by decide)]
  unfold readEntry
  rw [if_neg (by rw [hatoi]; simp)]
  simp only
  rw [if_neg (by omega), hrd]

end IfLib
